import Mathlib

/-!
# Verification of the PDF-Extractor core against its specification

Shallow embedding of the extraction pipeline of the repository
(`src/core/pipeline.py`, `src/core/extractor.py`, `src/core/cache.py`,
`src/core/llm_orchestrator.py`, `src/core/batch.py`, `src/core/evaluation.py`,
`src/models/schema.py`) together with theorems settling the spec claims.

Conventions of the embedding:
* Python byte strings (`bytes`) are modelled as Lean `String`s (one `Char` per byte).
* Python `dict`s whose iteration order matters are modelled as association lists.
* Fallible Python code is modelled with `Except`; each distinct exception site
  gets its own constructor of an error type.
* Page-coordinate floats are modelled as rationals (`ℚ`): the geometry of the
  zone classifier involves only comparisons, sums and division by constants.
-/

namespace PdfExtractor

/-! ## Zone classification (`PdfExtractor._calculate_zone`, src/core/extractor.py) -/

/-- A bounding box `[x0, y0, x1, y1]`, as passed to `_calculate_zone`. -/
structure BBox where
  x0 : ℚ
  y0 : ℚ
  x1 : ℚ
  y1 : ℚ
  deriving Repr, DecidableEq

/-- Embedding of `PdfExtractor._calculate_zone` (src/core/extractor.py, lines
108–149): classify a bounding box into a 3×3 page grid by its center point;
the `MIDDLE` vertical band drops its prefix. -/
def calculateZone (bbox : BBox) (page_width page_height : ℚ) : String :=
  let x_center := (bbox.x0 + bbox.x1) / 2
  let y_center := (bbox.y0 + bbox.y1) / 2
  let x_third := page_width / 3
  let y_third := page_height / 3
  let h_pos : String :=
    if x_center < x_third then "LEFT"
    else if x_center < 2 * x_third then "CENTER"
    else "RIGHT"
  let v_pos : String :=
    if y_center < y_third then "TOP"
    else if y_center < 2 * y_third then "MIDDLE"
    else "BOTTOM"
  if v_pos = "MIDDLE" then h_pos else v_pos ++ "-" ++ h_pos

/-- Horizontal band of the spec's 3×3 grid (§4.1). -/
inductive HBand | left | center | right
  deriving Repr, DecidableEq

/-- Vertical band of the spec's 3×3 grid (§4.1). -/
inductive VBand | top | middle | bottom
  deriving Repr, DecidableEq

/-- Spec-side definition (spec §4.1): the horizontal band of an x-center
against thirds of the page width. -/
def hBandOf (x_center page_width : ℚ) : HBand :=
  if x_center < page_width / 3 then .left
  else if x_center < 2 * (page_width / 3) then .center
  else .right

/-- Spec-side definition (spec §4.1): the vertical band of a y-center
against thirds of the page height. -/
def vBandOf (y_center page_height : ℚ) : VBand :=
  if y_center < page_height / 3 then .top
  else if y_center < 2 * (page_height / 3) then .middle
  else .bottom

/-- Spec-side label assembly (spec §4.1): `vertical ++ "-" ++ horizontal`,
except that a `MIDDLE` vertical band drops the prefix. -/
def zoneLabel (v : VBand) (h : HBand) : String :=
  let hs : String := match h with | .left => "LEFT" | .center => "CENTER" | .right => "RIGHT"
  match v with
  | .top => "TOP-" ++ hs
  | .middle => hs
  | .bottom => "BOTTOM-" ++ hs

/-- Spec-side zone classifier, assembled from the spec's words (§4.1). -/
def zoneSpec (bbox : BBox) (page_width page_height : ℚ) : String :=
  zoneLabel (vBandOf ((bbox.y0 + bbox.y1) / 2) page_height)
    (hBandOf ((bbox.x0 + bbox.x1) / 2) page_width)

/-- The nine strings the classifier can produce. -/
def zoneLabels : List String :=
  ["TOP-LEFT", "TOP-CENTER", "TOP-RIGHT",
   "LEFT", "CENTER", "RIGHT",
   "BOTTOM-LEFT", "BOTTOM-CENTER", "BOTTOM-RIGHT"]

/-- Nine degenerate boxes, one centered in each ninth of a 3×3 page. -/
def nineBoxes : List BBox :=
  [⟨5, 5, 5, 5⟩, ⟨15, 5, 15, 5⟩, ⟨25, 5, 25, 5⟩,
   ⟨5, 15, 5, 15⟩, ⟨15, 15, 15, 15⟩, ⟨25, 15, 25, 15⟩,
   ⟨5, 25, 5, 25⟩, ⟨15, 25, 15, 25⟩, ⟨25, 25, 25, 25⟩]

/-! ## Python string primitives

Translations of the Python string operations used by the core
(`str.lower`, `str.split`, `str.replace("_", " ")`, `"\n".join`, the `in`
substring operator). They are written at the `List Char` level so that
concrete instances evaluate inside the kernel. -/

/-- ASCII case table modelling `str.lower` (the code base lowers strings
whose accents were already stripped, so only ASCII letters matter; any
other character is left unchanged). -/
def asciiLowerTable : List (Char × Char) :=
  [('A', 'a'), ('B', 'b'), ('C', 'c'), ('D', 'd'), ('E', 'e'), ('F', 'f'),
   ('G', 'g'), ('H', 'h'), ('I', 'i'), ('J', 'j'), ('K', 'k'), ('L', 'l'),
   ('M', 'm'), ('N', 'n'), ('O', 'o'), ('P', 'p'), ('Q', 'q'), ('R', 'r'),
   ('S', 's'), ('T', 't'), ('U', 'u'), ('V', 'v'), ('W', 'w'), ('X', 'x'),
   ('Y', 'y'), ('Z', 'z')]

/-- Lower-case a single character (`str.lower`, per character). -/
def lowerChar (c : Char) : Char := (asciiLowerTable.lookup c).getD c

/-- `str.lower`. -/
def pyLower (s : String) : String := ⟨s.data.map lowerChar⟩

/-- The whitespace class of Python's `str.split()` / `\s` (ASCII part). -/
def isPyWs (c : Char) : Bool :=
  c == ' ' || c == '\t' || c == '\n' || c == '\r' || c == '\x0b' || c == '\x0c'

/-- `s.replace("_", " ")` (single-character pattern, hence a character map). -/
def underscoreToSpace (s : String) : String :=
  ⟨s.data.map (fun c => if c = '_' then ' ' else c)⟩

/-- Helper of `pySplitWs`: token accumulator split on whitespace, empties
dropped (Python `str.split()` with no argument). -/
def splitWsAux : List Char → List Char → List String
  | acc, [] => if acc.isEmpty then [] else [⟨acc.reverse⟩]
  | acc, c :: rest =>
    if isPyWs c then
      if acc.isEmpty then splitWsAux [] rest else ⟨acc.reverse⟩ :: splitWsAux [] rest
  else splitWsAux (c :: acc) rest

/-- `str.split()` with no argument: split on whitespace runs, no empties. -/
def pySplitWs (s : String) : List String := splitWsAux [] s.data

/-- Helper of `splitLines`: split at every `'\n'`, keeping empties
(Python `str.split("\n")`). -/
def splitLinesAux : List Char → List Char → List String
  | acc, [] => [⟨acc.reverse⟩]
  | acc, c :: rest =>
    if c = '\n' then ⟨acc.reverse⟩ :: splitLinesAux [] rest
    else splitLinesAux (c :: acc) rest

/-- `layout_text.split("\n")`. -/
def splitLines (s : String) : List String := splitLinesAux [] s.data

/-- `sep.join(parts)`. -/
def joinWith (sep : String) : List String → String
  | [] => ""
  | h :: t => t.foldl (fun acc s => acc ++ sep ++ s) h

/-- Helper of `strContains`: does `needle` occur as a contiguous infix? -/
def infixChars (needle : List Char) : List Char → Bool
  | [] => needle.isEmpty
  | c :: rest => needle.isPrefixOf (c :: rest) || infixChars needle rest

/-- Python's substring operator `needle in hay`. -/
def strContains (hay needle : String) : Bool := infixChars needle.data hay.data

/-! ## Keyword filtering (`filter_layout_by_keywords`, src/core/extractor.py) -/

/-- The stopword set of `filter_layout_by_keywords`
(src/core/extractor.py, lines 313–326). -/
def stopwords : List String :=
  ["do", "da", "de", "o", "a", "para", "com", "em", "no", "na", "os", "as"]

/-- Keep the tokens that are neither stopwords nor short
(`part not in stopwords and len(part) > 2`). -/
def keywordTokens (tokens : List String) : List String :=
  tokens.filter (fun part => !(stopwords.contains part) && part.length > 2)

/-- Keyword extraction of `filter_layout_by_keywords` (lines 311–339): for
each schema entry, tokens of the lowered, underscore-split field name and of
the lowered description. The Python code collects them into a `set`; a list
with duplicates is emptiness- and membership-equivalent, which is all the
filter ever asks of it. -/
def keywordsFrom (schema : List (String × String)) : List String :=
  schema.flatMap (fun fd =>
    keywordTokens (pySplitWs (underscoreToSpace (pyLower fd.1))) ++
      keywordTokens (pySplitWs (pyLower fd.2)))

/-- The lines of `layout_text` containing at least one keyword
(case-insensitive substring), as in lines 348–356. -/
def relevantLinesOf (layout_text : String) (schema : List (String × String)) :
    List String :=
  (splitLines layout_text).filter
    (fun line => (keywordsFrom schema).any (fun kw => strContains (pyLower line) kw))

/-- Embedding of `filter_layout_by_keywords` (src/core/extractor.py, lines
292–368). `max_lines` is a Python `int`, hence `Int`. -/
def filterLayoutByKeywords (layout_text : String)
    (extraction_schema : List (String × String)) (max_lines : Int) : String :=
  if extraction_schema.isEmpty || max_lines == 0 then layout_text
  else
    let keywords := keywordsFrom extraction_schema
    if keywords.isEmpty then
      if max_lines > 0 then
        joinWith "\n" ((splitLines layout_text).take max_lines.toNat)
      else layout_text
    else
      let lines := splitLines layout_text
      let relevant_lines := lines.filter
        (fun line => keywords.any (fun kw => strContains (pyLower line) kw))
      if relevant_lines.isEmpty then
        if max_lines > 0 then joinWith "\n" (lines.take max_lines.toNat)
        else layout_text
      else
        let relevant_lines :=
          if max_lines > 0 && (relevant_lines.length : Int) > max_lines then
            relevant_lines.take max_lines.toNat
          else relevant_lines
        joinWith "\n" relevant_lines

/-! ## Fingerprints and the cache key
(`hash_pdf_bytes`, `hash_extraction_schema` in src/core/extractor.py;
key assembly in src/core/pipeline.py line 47).

External primitives are modelled by their contracts:
* `sha256Hex` stands for `hashlib.sha256(..).hexdigest()`.  The claims only
  use that the digest is a deterministic function of its input and that
  distinct inputs give distinct digests (collision resistance idealized as
  exact injectivity), so the digest is modelled as an injective function of
  the input bytes; the identity is the canonical such stand-in.
* `jsonDumpsSortKeys` stands for
  `json.dumps(schema, sort_keys=True, ensure_ascii=False).encode("utf-8")`:
  keys sorted lexicographically, then a JSON object literal with the two
  structural escapes (`\"` and `\\`); the `\uXXXX` escaping of control
  characters is elided, which preserves injectivity.
* Python `bytes` values are modelled as `String` (one `Char` per byte).
-/

/-- Modelled `hashlib` digest: deterministic and injective (see above). -/
def sha256Hex (s : String) : String := s

/-- Embedding of `hash_pdf_bytes` (src/core/extractor.py, lines 281–283). -/
def hashPdfBytes (pdf_bytes : String) : String := sha256Hex pdf_bytes

/-- JSON string escaping of the structural characters. -/
def escChar (c : Char) : List Char :=
  if c = '"' ∨ c = '\\' then ['\\', c] else [c]

/-- A JSON string literal: `"…"` with `escChar` applied to each character. -/
def encStrChars (s : String) : List Char :=
  '"' :: (s.data.flatMap escChar ++ ['"'])

/-- One `"key":"value"` member of a JSON object literal. -/
def encPairChars (p : String × String) : List Char :=
  encStrChars p.1 ++ ':' :: encStrChars p.2

/-- Members after the first, each preceded by a comma, then the closing brace. -/
def encTail : List (String × String) → List Char
  | [] => ['}']
  | p :: ps => ',' :: (encPairChars p ++ encTail ps)

/-- A JSON object literal over an association list. -/
def encodePairsChars : List (String × String) → List Char
  | [] => ['{', '}']
  | p :: ps => '{' :: (encPairChars p ++ encTail ps)

/-- Decoder for `encStrChars` bodies: consume an escaped string up to its
closing quote, returning the decoded characters and the remainder. Used only
to prove the encoder injective. -/
def parseEsc : List Char → Option (List Char × List Char)
  | [] => none
  | c :: rest =>
    if c = '"' then some ([], rest)
    else if c = '\\' then
      match rest with
      | [] => none
      | d :: rest2 => (parseEsc rest2).map (fun sr => (d :: sr.1, sr.2))
    else (parseEsc rest).map (fun sr => (c :: sr.1, sr.2))

/-- Key order used by `sort_keys=True`: lexicographic on the key, with the
value as a (never reached for dict inputs) tiebreaker so the relation is
antisymmetric on pairs. -/
def keyLex (p q : String × String) : Prop :=
  p.1 < q.1 ∨ (p.1 = q.1 ∧ p.2 ≤ q.2)

instance : DecidableRel keyLex := fun p q =>
  inferInstanceAs (Decidable (p.1 < q.1 ∨ (p.1 = q.1 ∧ p.2 ≤ q.2)))

instance : IsTrans (String × String) keyLex where
  trans a b c hab hbc := by
    rcases hab with h1 | ⟨h1, h2⟩ <;> rcases hbc with h3 | ⟨h3, h4⟩
    · exact Or.inl (lt_trans h1 h3)
    · exact Or.inl (h3 ▸ h1)
    · exact Or.inl (h1 ▸ h3)
    · exact Or.inr ⟨h1.trans h3, le_trans h2 h4⟩

instance : IsAntisymm (String × String) keyLex where
  antisymm a b hab hba := by
    rcases hab with h1 | ⟨h1, h2⟩ <;> rcases hba with h3 | ⟨h3, h4⟩
    · exact absurd h3 (lt_asymm h1)
    · exact absurd h1 (h3 ▸ lt_irrefl _)
    · exact absurd h3 (h1 ▸ lt_irrefl _)
    · exact Prod.ext h1 (le_antisymm h2 h4)

instance : IsTotal (String × String) keyLex where
  total a b := by
    rcases lt_trichotomy a.1 b.1 with h | h | h
    · exact Or.inl (Or.inl h)
    · rcases le_total a.2 b.2 with h2 | h2
      · exact Or.inl (Or.inr ⟨h, h2⟩)
      · exact Or.inr (Or.inr ⟨h.symm, h2⟩)
    · exact Or.inr (Or.inl h)

/-- The schema's members sorted by key (`sort_keys=True`), by insertion
sort (kernel-computable; total + transitive + antisymmetric `keyLex` makes
the result canonical, i.e. invariant under permutation of the input). -/
def sortedPairs (s : List (String × String)) : List (String × String) :=
  List.insertionSort keyLex s

/-- Modelled `json.dumps(schema, sort_keys=True, ensure_ascii=False)` (see
the section comment). -/
def jsonDumpsSortKeys (schema : List (String × String)) : String :=
  ⟨encodePairsChars (sortedPairs schema)⟩

/-- Embedding of `hash_extraction_schema` (src/core/extractor.py, lines
286–289). -/
def hashExtractionSchema (schema : List (String × String)) : String :=
  sha256Hex (jsonDumpsSortKeys schema)

/-- The cache key assembled by `run_extraction` (src/core/pipeline.py,
line 47): `f"extract:{label}:{pdf_hash}:{schema_hash}"`. -/
def cacheKey (label : String) (pdf_bytes : String)
    (schema : List (String × String)) : String :=
  "extract:" ++ label ++ ":" ++ hashPdfBytes pdf_bytes ++ ":" ++
    hashExtractionSchema schema

deriving instance DecidableEq for Except

/-! ## Cache client (src/core/cache.py)

Each `CacheClient` method performs one operation against the Redis transport;
the embedding passes the transport's outcome in as an `Except` value (`.error`
= the underlying `redis` call raised, `.ok` = it returned) and the method body
is the `try/except` logic around it. -/

/-- The transport-level failures of the `redis` library that the client
handles (`ConnectionError`, `TimeoutError`, and the blanket `Exception`). -/
inductive RedisErr
  | connectionError
  | timeoutError
  | otherError
  deriving Repr, DecidableEq

/-- `CacheClient.__init__` (src/core/cache.py, lines 59–72): build the client
and ping it; a failure is logged and RE-RAISED (`raise`), not absorbed. -/
def cacheClientInit (ping : Except RedisErr Bool) : Except RedisErr Unit :=
  match ping with
  | .error e => .error e
  | .ok _ => .ok ()

/-- `CacheClient.health_check` (lines 74–80): ping, absorbing every failure
into `false`. -/
def healthCheck (ping : Except RedisErr Bool) : Bool :=
  match ping with
  | .error _ => false
  | .ok b => b

/-- `CacheClient.get` (lines 82–94): return the payload, absorbing every
transport failure into `None`. -/
def cacheGet (transport : Except RedisErr (Option String)) : Option String :=
  match transport with
  | .error _ => none
  | .ok v => v

/-- `CacheClient.set` (lines 96–110): `setex` when `ttl_seconds > 0`, plain
`set` otherwise; every transport failure is absorbed into `False`. -/
def cacheSet (ttl_seconds : Int) (setex setPlain : Except RedisErr Bool) : Bool :=
  if ttl_seconds > 0 then
    match setex with
    | .error _ => false
    | .ok b => b
  else
    match setPlain with
    | .error _ => false
    | .ok b => b

/-- `CacheClient.get_json` (lines 112–124): fetch, then decode; a missing
key, a transport failure, or an undecodable payload all yield `None`.
`jsonLoads` stands for `json.loads` (`none` = raises `JSONDecodeError`). -/
def cacheGetJson {J : Type} (transport : Except RedisErr (Option String))
    (jsonLoads : String → Option J) : Option J :=
  match cacheGet transport with
  | none => none
  | some raw => jsonLoads raw

/-- `CacheClient.set_json` (lines 126–135): encode then store; an encoding
failure (`json.dumps` raising, modelled by `none`) yields `False`. -/
def cacheSetJson (dumps : Option String) (ttl_seconds : Int)
    (setex setPlain : Except RedisErr Bool) : Bool :=
  match dumps with
  | none => false
  | some _ => cacheSet ttl_seconds setex setPlain

/-! ## LLM orchestrator (src/core/llm_orchestrator.py) -/

/-- Per-field result of `extract_fields`: `{"value": …, "details": {…}}`. -/
structure FieldResult where
  value : Option String
  details : List (String × String)
  deriving Repr, DecidableEq

/-- `_fallback_error` (src/core/llm_orchestrator.py, lines 280–297): every
schema field mapped to a null value with an error tag. -/
def fallbackError (schema : List (String × String)) (reason : String) :
    List (String × FieldResult) :=
  schema.map (fun fd => (fd.1, { value := none, details := [("error", reason)] }))

/-- Remove trailing whitespace (helper of `pyStrip`). -/
def dropTrailWs : List Char → List Char
  | [] => []
  | c :: t =>
    match dropTrailWs t with
    | [] => if isPyWs c then [] else [c]
    | r => c :: r

/-- Python `str.strip()` with no argument. -/
def pyStrip (s : String) : String :=
  ⟨dropTrailWs (s.data.dropWhile (fun c => isPyWs c))⟩

/-- `raw_value.strip() or None` (lines 233–237): a string is stripped and an
empty result becomes `None`; a missing/null value stays `None`. -/
def stripOrNone (raw : Option String) : Option String :=
  match raw with
  | none => none
  | some s => let t := pyStrip s; if t = "" then none else some t

/-- `_normalize_pydantic_response` (lines 216–245). The parsed Pydantic
object is modelled as the map `field name ↦ Optional[str]` realized by
`getattr(parsed_data, field_name, None)`. -/
def normalizePydanticResponse (parsed : String → Option String)
    (schema : List (String × String)) : List (String × FieldResult) :=
  schema.map (fun fd =>
    (fd.1, { value := stripOrNone (parsed fd.1),
             details := [("source", "openai"), ("method", "responses.parse")] }))

/-- Embedding of `extract_fields` (src/core/llm_orchestrator.py, lines
120–213). `apiKeySet` is the truthiness of `settings.openai_api_key`; `call`
is the outcome of the single `client.responses.parse(...)` call: `.error` =
the call raised, `.ok none` = it returned a falsy `output_parsed`,
`.ok (some parsed)` = it returned a parsed object. The call is made at most
once: no retry exists in the control flow. -/
def extract_fields (label : String) (extraction_schema : List (String × String))
    (doc_layout : String) (apiKeySet : Bool)
    (call : Except String (Option (String → Option String))) :
    List (String × FieldResult) :=
  if !apiKeySet then fallbackError extraction_schema "openai_key_missing"
  else
    match call with
    | .error _ => fallbackError extraction_schema "openai_api_error"
    | .ok none => fallbackError extraction_schema "empty_response"
    | .ok (some parsed) => normalizePydanticResponse parsed extraction_schema

/-! ## Request and result models (src/models/schema.py) -/

/-- `ExtractionRequest` (src/models/schema.py, lines 18–62). -/
structure ExtractionRequest where
  label : String
  extraction_schema : List (String × String)
  pdf_path : Option String
  pdf_bytes : Option String
  deriving Repr, DecidableEq

/-- `ExtractionRequest.validate_pdf_source` (lines 53–62): at most and at
least one of `pdf_path` / `pdf_bytes` must be non-`None`. -/
def validatePdfSource (r : ExtractionRequest) : Except String ExtractionRequest :=
  if r.pdf_path = none ∧ r.pdf_bytes = none then
    .error "Either pdf_path or pdf_bytes must be provided."
  else if r.pdf_path ≠ none ∧ r.pdf_bytes ≠ none then
    .error "Cannot provide both pdf_path and pdf_bytes. Use only one."
  else .ok r

/-- Constructing an `ExtractionRequest` runs the Pydantic `mode="after"`
validator. -/
def mkExtractionRequest (label : String) (schema : List (String × String))
    (pdf_path pdf_bytes : Option String) : Except String ExtractionRequest :=
  validatePdfSource ⟨label, schema, pdf_path, pdf_bytes⟩

/-- The `meta` dictionary a pipeline run attaches to its result
(src/core/pipeline.py, lines 93–101), as a record. -/
structure ResultMeta where
  cache_hit : Bool
  cache_key : String
  pdf_hash : String
  schema_hash : String
  timings_seconds : List (String × ℚ)
  doc_meta : List (String × String)
  trace_llm_resolved : List String
  trace_unresolved : List String
  deriving Repr, DecidableEq

/-- `ExtractionResult` (src/models/schema.py, lines 65–97); `fields` maps
each field name to its extracted value-or-null. -/
structure ExtractionResult where
  label : String
  fields : List (String × Option String)
  meta : ResultMeta
  deriving Repr, DecidableEq

/-! ## Extraction pipeline (src/core/pipeline.py)

The collaborators of `run_extraction` are gathered in a `PipelineEnv`:
path resolution and the file system, the outcome of the `CacheClient()`
constructor, the PDF extractor, the (total — it absorbs adapter failures,
see `extract_fields`) LLM orchestrator, and the `perf_counter` timings.
The Redis store, healthy for the duration of a run, is an association list
threaded through the run; a stored value `none` models a string that
`json.loads` cannot decode. JSON (de)serialization of the structured
payloads written by this very pipeline (`result.model_dump()` /
`ExtractionResult.model_validate`) round-trips and is modelled as the
identity on `ExtractionResult`. -/

/-- The failures of `PdfExtractor.load` (src/core/extractor.py, lines 44–60):
a missing file or a PDF with no pages / no text. -/
inductive ExtractErr
  | fileNotFound (msg : String)
  | emptyPdf (msg : String)
  deriving Repr, DecidableEq

/-- The exceptions `run_extraction` can raise, one constructor per raise
site reachable from it. -/
inductive PipelineErr
  | invalidRequest (msg : String)
  | notFound (msg : String)
  | emptyDocument (msg : String)
  | cacheUnavailable (e : RedisErr)
  deriving Repr, DecidableEq

/-- The cache store visible to one pipeline run: newest entry first; a
`none` payload is a stored string `json.loads` rejects. -/
abbrev CacheState := List (String × Option ExtractionResult)

/-- `CacheClient.get_json` against the store (healthy transport): a missing
key and an undecodable payload are both misses. -/
def stateGetJson (cache : CacheState) (key : String) : Option ExtractionResult :=
  match cache.lookup key with
  | none => none
  | some v => v

/-- `CacheClient.set_json` against the store (healthy transport): the
serialized result is stored under the key (newest first). -/
def stateSetJson (cache : CacheState) (key : String) (r : ExtractionResult) :
    CacheState :=
  (key, some r) :: cache

/-- Collaborators of one `run_extraction` call. -/
structure PipelineEnv where
  resolve : String → String
  fs : String → Option String
  cacheInit : Except RedisErr Unit
  extractDoc : String → Except ExtractErr (String × List (String × String))
  llm : String → List (String × String) → String → List (String × FieldResult)
  tExtract : ℚ
  tLlm : ℚ
  tTotal : ℚ

/-- Python truthiness of `request.pdf_path` (`if not request.pdf_path`):
`None` and the empty string are falsy. -/
def pathTruthy : Option String → Bool
  | none => false
  | some s => s != ""

/-- Truthiness of a field value (`data.get("value")` in the trace split):
`None` and `""` are falsy. -/
def valueTruthy : Option String → Bool
  | none => false
  | some s => s != ""

/-- The cache-hit rewrite of lines 54–57: `meta["cache_hit"] = True;
meta["cache_key"] = cache_key` on a payload read back from the cache. -/
def markCacheHit (p : ExtractionResult) (key : String) : ExtractionResult :=
  { p with meta := { p.meta with cache_hit := true, cache_key := key } }

/-- Embedding of `run_extraction` (src/core/pipeline.py, lines 29–111).
Returns the result together with the cache store after the run. -/
def run_extraction (env : PipelineEnv) (cache : CacheState)
    (request : ExtractionRequest) (use_cache : Bool) :
    Except PipelineErr (ExtractionResult × CacheState) :=
  if !pathTruthy request.pdf_path then
    .error (.invalidRequest "pdf_path is required until direct uploads are supported.")
  else
    let pdf_path := env.resolve (request.pdf_path.getD "")
    match env.fs pdf_path with
    | none => .error (.notFound pdf_path)
    | some pdf_bytes =>
      let pdf_hash := hashPdfBytes pdf_bytes
      let schema_hash := hashExtractionSchema request.extraction_schema
      let cache_key := "extract:" ++ request.label ++ ":" ++ pdf_hash ++ ":" ++ schema_hash
      match env.cacheInit with
      | .error e => .error (.cacheUnavailable e)
      | .ok _ =>
        match (if use_cache then stateGetJson cache cache_key else none) with
        | some payload => .ok (markCacheHit payload cache_key, cache)
        | none =>
          match env.extractDoc pdf_path with
          | .error (.fileNotFound m) => .error (.notFound m)
          | .error (.emptyPdf m) => .error (.emptyDocument m)
          | .ok doc =>
            let llm_results := env.llm request.label request.extraction_schema doc.1
            let fields := llm_results.map (fun fr => (fr.1, fr.2.value))
            let meta : ResultMeta :=
              { cache_hit := false
                cache_key := cache_key
                pdf_hash := pdf_hash
                schema_hash := schema_hash
                timings_seconds :=
                  [("extract", env.tExtract), ("llm", env.tLlm), ("total", env.tTotal)]
                doc_meta := doc.2
                trace_llm_resolved :=
                  (llm_results.filter (fun fr => valueTruthy fr.2.value)).map Prod.fst
                trace_unresolved :=
                  (llm_results.filter (fun fr => !valueTruthy fr.2.value)).map Prod.fst }
            let result : ExtractionResult :=
              { label := request.label, fields := fields, meta := meta }
            .ok (result, stateSetJson cache cache_key result)

/-! ## Batch orchestrator (src/core/batch.py) -/

/-- `BatchExtractionItem` (src/models/schema.py, lines 100–124). -/
structure BatchItem where
  label : String
  extraction_schema : List (String × String)
  pdf_path : String
  deriving Repr, DecidableEq

/-- `BatchItemResult` (src/models/schema.py, lines 160–172). -/
structure BatchItemResult where
  index : Nat
  status : String
  label : String
  fields : Option (List (String × Option String))
  meta : Option ResultMeta
  error : Option String
  deriving Repr, DecidableEq

/-- `BatchSummary` (src/models/schema.py, lines 175–182). -/
structure BatchSummary where
  status : String
  total : Nat
  successful : Nat
  failed : Nat
  deriving Repr, DecidableEq

/-- One element of the stream yielded by `process_batch_parallel`. -/
inductive BatchOutput
  | item (r : BatchItemResult)
  | summary (s : BatchSummary)
  deriving Repr, DecidableEq

/-- A raised Python exception, as the batch layer sees it:
`f"{type(e).__name__}: {str(e)}"`. -/
structure PyExc where
  typeName : String
  message : String
  deriving Repr, DecidableEq

/-- `process_one` (src/core/batch.py, lines 47–88): convert one item's
pipeline outcome into a `BatchItemResult`; every exception of the item's own
run (request construction included) is caught and rendered. -/
def process_one (index : Nat) (item : BatchItem)
    (outcome : Except PyExc ExtractionResult) : BatchItemResult :=
  match outcome with
  | .ok result =>
    { index := index, status := "completed", label := item.label,
      fields := some result.fields, meta := some result.meta, error := none }
  | .error e =>
    { index := index, status := "error", label := item.label,
      fields := none, meta := none,
      error := some (e.typeName ++ ": " ++ e.message) }

/-- The item results in completion order (`asyncio.as_completed`):
`completed` is the enumerated input in the order the event loop finished the
tasks; `outcome i it` is what item `i`'s `run_extraction` did. -/
def processedResults (outcome : Nat → BatchItem → Except PyExc ExtractionResult)
    (completed : List (Nat × BatchItem)) : List BatchItemResult :=
  completed.map (fun ix => process_one ix.1 ix.2 (outcome ix.1 ix.2))

/-- The final summary, from the counters incremented per yielded result
(src/core/batch.py, lines 102–135). -/
def batchSummaryOf (items : List BatchItem)
    (outcome : Nat → BatchItem → Except PyExc ExtractionResult)
    (completed : List (Nat × BatchItem)) : BatchSummary :=
  let results := processedResults outcome completed
  { status := "done"
    total := items.length
    successful := (results.filter (fun r => r.status == "completed")).length
    failed := (results.filter (fun r => !(r.status == "completed"))).length }

/-- Embedding of `process_batch_parallel` (src/core/batch.py, lines 24–135):
the yielded stream is every item result in completion order followed by
exactly one summary. -/
def process_batch_parallel (items : List BatchItem)
    (outcome : Nat → BatchItem → Except PyExc ExtractionResult)
    (completed : List (Nat × BatchItem)) : List BatchOutput :=
  (processedResults outcome completed).map .item ++
    [.summary (batchSummaryOf items outcome completed)]

/-! ## Concrete instances used by witnesses and counterexamples -/

/-- A one-line extracted document: layout text and `doc.meta`. -/
def doc0 : String × List (String × String) :=
  ("[TOP-LEFT] [x:100-230, y:50] JOAO DA SILVA", [("engine", "pdfplumber")])

/-- A healthy environment: one PDF on disk, a working cache transport, an
LLM answering every field. -/
def env0 : PipelineEnv :=
  { resolve := id
    fs := fun p => if p = "doc.pdf" then some "PDFBYTES" else none
    cacheInit := .ok ()
    extractDoc := fun p => if p = "doc.pdf" then .ok doc0 else .error (.fileNotFound p)
    llm := fun _ schema _ => schema.map (fun fd =>
      (fd.1, { value := some "JOAO DA SILVA", details := [("source", "openai")] }))
    tExtract := 0
    tLlm := 0
    tTotal := 0 }

/-- `env0` with the Redis transport down: the `CacheClient()` ping raises. -/
def envCacheDown : PipelineEnv := { env0 with cacheInit := .error .connectionError }

/-- A well-formed request for the PDF `env0` knows. -/
def req0 : ExtractionRequest := ⟨"oab", [("nome", "Nome")], some "doc.pdf", none⟩

/-- The cache key `run_extraction env0 _ req0 _` computes. -/
def key0 : String := "extract:oab:PDFBYTES:\x7b\"nome\":\"Nome\"\x7d"

/-- The result the compute path of `run_extraction env0 _ req0 _` builds. -/
def r10 : ExtractionResult :=
  { label := "oab"
    fields := [("nome", some "JOAO DA SILVA")]
    meta :=
      { cache_hit := false
        cache_key := key0
        pdf_hash := "PDFBYTES"
        schema_hash := "\x7b\"nome\":\"Nome\"\x7d"
        timings_seconds := [("extract", 0), ("llm", 0), ("total", 0)]
        doc_meta := [("engine", "pdfplumber")]
        trace_llm_resolved := ["nome"]
        trace_unresolved := [] } }

/-- A foreign payload sitting in the cache under `key0`. -/
def bogusR : ExtractionResult := { r10 with label := "other" }

/-! ## Evaluator (src/core/evaluation.py)

`normalize_value` and `values_match`. The `unicodedata` collaborator
(`NFKD` decomposition and `combining`) is modelled by its contract on the
Latin repertoire this repository processes: the accented Latin letters
decompose into base letter + combining mark, every other character
decomposes to itself, and exactly the combining marks are `combining`.
`str.lower` is `pyLower` (ASCII table) — by the time `normalize_value`
lowers, accents have already been stripped. Python `float` values are not
modelled (their `str()` goes through `repr` rounding); the embedded value
domain is None/bool/int/str/list/dict. -/

/-- The combining marks produced by `nfkdTable`. -/
def combiningMark (c : Char) : Bool :=
  c == '\u0300' || c == '\u0301' || c == '\u0302' || c == '\u0303' || c == '\u0327'

/-- NFKD decompositions of the accented Latin letters (modelled
`unicodedata.normalize("NFKD", ·)`, per character). -/
def nfkdTable : List (Char × List Char) :=
  [('á', ['a', '\u0301']), ('à', ['a', '\u0300']), ('â', ['a', '\u0302']),
   ('ã', ['a', '\u0303']), ('é', ['e', '\u0301']), ('ê', ['e', '\u0302']),
   ('í', ['i', '\u0301']), ('ó', ['o', '\u0301']), ('ô', ['o', '\u0302']),
   ('õ', ['o', '\u0303']), ('ú', ['u', '\u0301']), ('ç', ['c', '\u0327']),
   ('Á', ['A', '\u0301']), ('À', ['A', '\u0300']), ('Â', ['A', '\u0302']),
   ('Ã', ['A', '\u0303']), ('É', ['E', '\u0301']), ('Ê', ['E', '\u0302']),
   ('Í', ['I', '\u0301']), ('Ó', ['O', '\u0301']), ('Ô', ['O', '\u0302']),
   ('Õ', ['O', '\u0303']), ('Ú', ['U', '\u0301']), ('Ç', ['C', '\u0327'])]

/-- Per-character NFKD decomposition. -/
def nfkdChar (c : Char) : List Char := (nfkdTable.lookup c).getD [c]

/-- `_strip_accents` (src/core/evaluation.py, lines 69–74): decompose, then
drop the combining marks. -/
def stripAccentsL (l : List Char) : List Char :=
  (l.flatMap nfkdChar).filter (fun c => !combiningMark c)

/-- `text.lower()`, per character list. -/
def lowerL (l : List Char) : List Char := l.map lowerChar

/-- `_WHITESPACE_RE.sub(" ", text)`: every maximal whitespace run becomes
one space (the flag records whether the previous character was whitespace). -/
def collapseL : Bool → List Char → List Char
  | _, [] => []
  | prev, c :: t =>
    if isPyWs c then
      if prev then collapseL true t else ' ' :: collapseL true t
    else c :: collapseL false t

/-- `text.strip()` on a character list. -/
def stripWsL (l : List Char) : List Char :=
  dropTrailWs (l.dropWhile (fun c => isPyWs c))

/-- The string arm of `normalize_value` (lines 109–113): strip accents,
lower, collapse whitespace runs, trim. -/
def normStrL (l : List Char) : List Char :=
  stripWsL (collapseL false (lowerL (stripAccentsL l)))

/-- `normalize_value` on a string. -/
def normStr (s : String) : String := ⟨normStrL s.data⟩

/-- Decimal digits of a natural number (`str()` of a non-negative int),
with a fuel argument for structural recursion. -/
def natDigitsAux : Nat → Nat → List Char
  | 0, _ => []
  | fuel + 1, n =>
    if n < 10 then [Nat.digitChar n]
    else natDigitsAux fuel (n / 10) ++ [Nat.digitChar (n % 10)]

/-- Decimal digits of a natural number. -/
def natDigits (n : Nat) : List Char := natDigitsAux (n + 1) n

/-- Python `str()` of an int. -/
def pyStrInt (n : Int) : String :=
  if n < 0 then ⟨'-' :: natDigits n.natAbs⟩ else ⟨natDigits n.toNat⟩

/-- The Python values `normalize_value` handles (floats excluded, see the
section comment; tuples/sets behave as lists). -/
inductive Value where
  | none
  | bool (b : Bool)
  | int (n : Int)
  | str (s : String)
  | list (xs : List Value)
  | dict (ps : List (String × Value))

/-- `sorted(value.items())` for a (string-keyed, duplicate-free) dict:
sorting compares the tuples, which on distinct keys is sorting by key. -/
def sortByKey (ps : List (String × Value)) : List (String × Value) :=
  List.insertionSort (fun p q => p.1 ≤ q.1) ps

/-- Embedding of `normalize_value` (src/core/evaluation.py, lines 80–113):
null → ""; booleans → "true"/"false"; ints stringified and stripped; dicts
become their sorted item list; iterables render as
`"[" ++ ", ".join(parts) ++ "]"` (a dict item `(k, v)` being the two-element
tuple `[k', v']`); everything else is accent-stripped, lowered,
whitespace-collapsed and trimmed. -/
def normalizeValue : Value → String
  | .none => ""
  | .bool b => if b then "true" else "false"
  | .int n => pyStrip (pyStrInt n)
  | .str s => normStr s
  | .list xs =>
    "[" ++ joinWith ", " (xs.attach.map (fun x => normalizeValue x.1)) ++ "]"
  | .dict ps =>
    "[" ++ joinWith ", " ((sortByKey ps).attach.map (fun p =>
      "[" ++ normStr p.1.1 ++ ", " ++ normalizeValue p.1.2 ++ "]")) ++ "]"
termination_by v => sizeOf v
decreasing_by
  all_goals simp_wf
  · obtain ⟨y, hmem0⟩ := x
    have h1 := List.sizeOf_lt_of_mem hmem0
    change sizeOf y < 1 + sizeOf xs
    omega
  · obtain ⟨⟨a, b⟩, hmem0⟩ := p
    have hperm : (sortByKey ps).Perm ps := by
      unfold sortByKey
      exact List.perm_insertionSort _ ps
    have hmem : (a, b) ∈ ps := hperm.mem_iff.mp hmem0
    have h1 := List.sizeOf_lt_of_mem hmem
    have h2 : sizeOf (a, b) = 1 + sizeOf a + sizeOf b := by simp
    change sizeOf b < 1 + sizeOf ps
    omega

/-- Embedding of `values_match` (src/core/evaluation.py, lines 116–123). -/
def valuesMatch (expected predicted : Value) : Bool :=
  match expected with
  | .none =>
    (match predicted with
     | .none => true
     | _ => false) || (normalizeValue predicted == "")
  | _ => normalizeValue expected == normalizeValue predicted

/-- A character that NFKD decomposes to itself and is not a combining
mark — `_strip_accents` leaves it alone. -/
def accentStable (c : Char) : Bool := (nfkdChar c == [c]) && !combiningMark c

/-- A character that survives all of `normalize_value`'s string passes
unchanged: NFKD-stable non-mark, fixed by lowering, and a space if
whitespace at all. -/
def goodChar (c : Char) : Bool :=
  accentStable c && (lowerChar c == c) && (!isPyWs c || c == ' ')

/-- The first character, if any, is not whitespace. -/
def headNotWs : List Char → Bool
  | [] => true
  | c :: _ => !isPyWs c

/-- No whitespace character directly followed by another. -/
def noDbl : List Char → Bool
  | [] => true
  | c :: t => (!isPyWs c || headNotWs t) && noDbl t

/-- The last character, if any, is not whitespace. -/
def lastNotWs : List Char → Bool
  | [] => true
  | [c] => !isPyWs c
  | _ :: t => lastNotWs t

/-- Normal form of `normalize_value`'s string pipeline: good characters
only, isolated spaces, no leading or trailing whitespace. -/
def NormedB (s : String) : Bool :=
  s.data.all goodChar && noDbl s.data && headNotWs s.data && lastNotWs s.data

/-- Two-item batch for the batch-orchestrator witness. -/
def items0 : List BatchItem :=
  [⟨"oab", [("nome", "Nome")], "doc.pdf"⟩,
   ⟨"oab", [("nome", "Nome")], "missing.pdf"⟩]

/-- Per-item pipeline outcomes: item 0 succeeds, item 1 raises. -/
def outcome0 : Nat → BatchItem → Except PyExc ExtractionResult :=
  fun i _ =>
    if i = 0 then .ok r10
    else .error ⟨"FileNotFoundError", "PDF not found: missing.pdf"⟩

/-- A completion order in which item 1 finishes first. -/
def completed0 : List (Nat × BatchItem) :=
  [(1, ⟨"oab", [("nome", "Nome")], "missing.pdf"⟩),
   (0, ⟨"oab", [("nome", "Nome")], "doc.pdf"⟩)]

theorem calculateZone_eq_spec (bbox : BBox) (w h : ℚ) :
    calculateZone bbox w h = zoneSpec bbox w h := by
  unfold calculateZone zoneSpec zoneLabel hBandOf vBandOf
  rcases bbox with ⟨x0, y0, x1, y1⟩
  dsimp only
  rw [show (2 : ℚ) * (w / 3) = 2 * w / 3 by ring,
    show (2 : ℚ) * (h / 3) = 2 * h / 3 by ring]
  split <;> split <;> split <;> split <;> (try split) <;> simp_all

theorem calculateZone_mem_zoneLabels (bbox : BBox) (w h : ℚ) :
    calculateZone bbox w h ∈ zoneLabels := by
  rw [calculateZone_eq_spec]
  unfold zoneSpec zoneLabel zoneLabels
  rcases vBandOf ((bbox.y0 + bbox.y1) / 2) h <;>
    rcases hBandOf ((bbox.x0 + bbox.x1) / 2) w <;> simp

/-- C5 counterexample: the zone classifier attains NINE pairwise-distinct
labels (30×30 page, one box centered in each ninth), refuting the claim that
"only 8 distinct labels exist". -/
theorem c5_nine_distinct_labels :
    nineBoxes.map (fun b => calculateZone b 30 30) = zoneLabels ∧
    zoneLabels.Nodup := by
  constructor
  · unfold nineBoxes zoneLabels
    simp only [List.map]
    norm_num [calculateZone]
    decide
  · decide

/-- C5 (amended): the zone label is determined by the box center against
thirds of the page exactly as the spec words it (`calculateZone = zoneSpec`);
the label always lies in the nine-element label set; a box centered exactly at
the page midpoints is classified "CENTER"; a box centered in the middle third
on both axes yields "CENTER" (never "MIDDLE-CENTER"); a box centered in the
top-left ninth yields "TOP-LEFT". -/
theorem c5_zone_classification (bbox : BBox) (w h : ℚ)
    (hw : 0 < w) (hh : 0 < h) :
    (calculateZone bbox w h = zoneSpec bbox w h) ∧
    (calculateZone bbox w h ∈ zoneLabels) ∧
    ((bbox.x0 + bbox.x1) / 2 = w / 2 → (bbox.y0 + bbox.y1) / 2 = h / 2 →
      calculateZone bbox w h = "CENTER") ∧
    (w / 3 ≤ (bbox.x0 + bbox.x1) / 2 → (bbox.x0 + bbox.x1) / 2 < 2 * w / 3 →
      h / 3 ≤ (bbox.y0 + bbox.y1) / 2 → (bbox.y0 + bbox.y1) / 2 < 2 * h / 3 →
      calculateZone bbox w h = "CENTER") ∧
    ((bbox.x0 + bbox.x1) / 2 < w / 3 → (bbox.y0 + bbox.y1) / 2 < h / 3 →
      calculateZone bbox w h = "TOP-LEFT") := by
  refine ⟨calculateZone_eq_spec bbox w h, calculateZone_mem_zoneLabels bbox w h, ?_, ?_, ?_⟩
  · intro hx hy
    unfold calculateZone
    rw [hx, hy]
    have h1 : ¬ (w / 2 < w / 3) := by intro hc; linarith
    have h2 : w / 2 < 2 * (w / 3) := by linarith
    have h3 : ¬ (h / 2 < h / 3) := by intro hc; linarith
    have h4 : h / 2 < 2 * (h / 3) := by linarith
    simp [h1, h2, h3, h4]
  · intro hx1 hx2 hy1 hy2
    unfold calculateZone
    have h1 : ¬ ((bbox.x0 + bbox.x1) / 2 < w / 3) := by intro hc; linarith
    have h2 : (bbox.x0 + bbox.x1) / 2 < 2 * (w / 3) := by linarith
    have h3 : ¬ ((bbox.y0 + bbox.y1) / 2 < h / 3) := by intro hc; linarith
    have h4 : (bbox.y0 + bbox.y1) / 2 < 2 * (h / 3) := by linarith
    simp [h1, h2, h3, h4]
  · intro hx hy
    unfold calculateZone
    simp [hx, hy]

/-- C5 witness: the amended theorem applied at a concrete box in the
top-left ninth of a 595×842 page (the spec's concrete scenario). -/
theorem c5_zone_classification_witness :
    calculateZone ⟨100, 50, 230, 70⟩ 595 842 = "TOP-LEFT" :=
  (c5_zone_classification ⟨100, 50, 230, 70⟩ 595 842 (by norm_num) (by norm_num)).2.2.2.2
    (by norm_num) (by norm_num)

/-- C10 counterexample: with a NEGATIVE line cap (`max_lines = -1`, a legal
Python `int`), keyword-based line selection still happens — the non-matching
line "zzz" is dropped although `max_lines > 0` is false, refuting "keyword-based
line selection … only occur[s] when max_lines > 0". -/
theorem c10_negative_cap_selects :
    filterLayoutByKeywords "aaa nome\nzzz" [("nome", "Nome")] (-1) = "aaa nome" ∧
    "aaa nome" ≠ "aaa nome\nzzz" := by
  constructor
  · decide
  · decide

/-- C10 (amended): `filter_layout_by_keywords` returns `layout_text` unchanged
whenever `max_lines = 0` or the schema is empty; for a negative `max_lines`
keyword selection may still occur, but truncation and the first-N fallback
never do — the result is the unfiltered text or the untruncated keyword-matching
lines. -/
theorem c10_filter_edge_cases (layout : String) (schema : List (String × String))
    (ml : Int) :
    ((ml = 0 ∨ schema = []) → filterLayoutByKeywords layout schema ml = layout) ∧
    (ml < 0 → filterLayoutByKeywords layout schema ml = layout ∨
      filterLayoutByKeywords layout schema ml =
        joinWith "\n" (relevantLinesOf layout schema)) := by
  constructor
  · rintro (rfl | rfl)
    · simp [filterLayoutByKeywords]
    · simp [filterLayoutByKeywords]
  · intro hml
    have h0 : (ml == 0) = false := by
      rw [beq_eq_false_iff_ne]
      omega
    have hpos : ¬ (ml > 0) := by omega
    unfold filterLayoutByKeywords
    rw [h0]
    by_cases hs : schema.isEmpty
    · simp [hs]
    · simp only [hs, Bool.false_or, if_neg, Bool.or_false]
      by_cases hk : (keywordsFrom schema).isEmpty
      · simp [hk, hpos]
      · simp only [hk, if_neg, if_false, Bool.false_eq_true, not_false_eq_true]
        by_cases hr : ((splitLines layout).filter
            (fun line => (keywordsFrom schema).any
              (fun kw => strContains (pyLower line) kw))).isEmpty
        · simp [hr, hpos]
        · right
          simp only [hr, if_false, Bool.false_eq_true, not_false_eq_true]
          have : (decide (ml > 0) && ((((splitLines layout).filter
              (fun line => (keywordsFrom schema).any
                (fun kw => strContains (pyLower line) kw))).length : Int) > ml)) = false := by
            simp [hpos]
          simp [this, hpos, relevantLinesOf]

/-- C10 witness: the amended theorem at concrete inputs — the cap 0 leaves a
two-line layout untouched. -/
theorem c10_filter_edge_cases_witness :
    filterLayoutByKeywords "x\ny" [("nome", "Nome")] 0 = "x\ny" :=
  (c10_filter_edge_cases "x\ny" [("nome", "Nome")] 0).1 (Or.inl rfl)

/-! ### Injectivity of the canonical JSON encoding -/

theorem parseEsc_quote (rest : List Char) : parseEsc ('"' :: rest) = some ([], rest) := by
  rw [parseEsc.eq_def]
  simp

theorem parseEsc_backslash (d : Char) (rest : List Char) :
    parseEsc ('\\' :: d :: rest) = (parseEsc rest).map (fun sr => (d :: sr.1, sr.2)) := by
  rw [parseEsc.eq_def]
  simp

theorem parseEsc_plain (c : Char) (rest : List Char) (h1 : c ≠ '"') (h2 : c ≠ '\\') :
    parseEsc (c :: rest) = (parseEsc rest).map (fun sr => (c :: sr.1, sr.2)) := by
  rw [parseEsc.eq_def]
  simp [h1, h2]

theorem parseEsc_roundtrip (l : List Char) (r : List Char) :
    parseEsc (l.flatMap escChar ++ '"' :: r) = some (l, r) := by
  induction l with
  | nil =>
    simp only [List.flatMap_nil, List.nil_append]
    exact parseEsc_quote r
  | cons c t ih =>
    by_cases hc : c = '"' ∨ c = '\\'
    · have hesc : escChar c = ['\\', c] := by simp [escChar, hc]
      simp only [List.flatMap_cons, hesc, List.cons_append, List.append_assoc,
        List.nil_append]
      rw [parseEsc_backslash, ih]
      rfl
    · push_neg at hc
      have hesc : escChar c = [c] := by simp [escChar, hc.1, hc.2]
      simp only [List.flatMap_cons, hesc, List.cons_append, List.append_assoc,
        List.nil_append]
      rw [parseEsc_plain c _ hc.1 hc.2, ih]
      rfl

theorem string_data_inj {s t : String} (h : s.data = t.data) : s = t := by
  cases s
  cases t
  exact congrArg String.mk h

theorem encStr_append_inj {s1 s2 : String} {t1 t2 : List Char}
    (h : encStrChars s1 ++ t1 = encStrChars s2 ++ t2) : s1 = s2 ∧ t1 = t2 := by
  have h' : s1.data.flatMap escChar ++ '"' :: t1 =
      s2.data.flatMap escChar ++ '"' :: t2 := by
    simpa [encStrChars, List.append_assoc] using h
  have h2 := congrArg parseEsc h'
  rw [parseEsc_roundtrip, parseEsc_roundtrip] at h2
  have h3 := Option.some.inj h2
  exact ⟨string_data_inj (congrArg Prod.fst h3), congrArg Prod.snd h3⟩

theorem encPair_append_inj {p q : String × String} {t1 t2 : List Char}
    (h : encPairChars p ++ t1 = encPairChars q ++ t2) : p = q ∧ t1 = t2 := by
  have h' : encStrChars p.1 ++ (':' :: (encStrChars p.2 ++ t1)) =
      encStrChars q.1 ++ (':' :: (encStrChars q.2 ++ t2)) := by
    simpa [encPairChars, List.append_assoc] using h
  obtain ⟨hk, hrest⟩ := encStr_append_inj h'
  have hx : encStrChars p.2 ++ t1 = encStrChars q.2 ++ t2 := by
    simpa using hrest
  obtain ⟨hv, ht⟩ := encStr_append_inj hx
  exact ⟨Prod.ext hk hv, ht⟩

theorem encTail_inj : ∀ {ps qs : List (String × String)},
    encTail ps = encTail qs → ps = qs := by
  intro ps
  induction ps with
  | nil =>
    intro qs h
    cases qs with
    | nil => rfl
    | cons q qs => simp [encTail] at h
  | cons p ps ih =>
    intro qs h
    cases qs with
    | nil => simp [encTail] at h
    | cons q qs =>
      simp only [encTail, List.cons.injEq, true_and] at h
      obtain ⟨hpq, ht⟩ := encPair_append_inj h
      rw [hpq, ih ht]

theorem encodePairs_inj : ∀ {ps qs : List (String × String)},
    encodePairsChars ps = encodePairsChars qs → ps = qs := by
  intro ps qs h
  cases ps with
  | nil =>
    cases qs with
    | nil => rfl
    | cons q qs =>
      exfalso
      simp only [encodePairsChars, List.cons.injEq, true_and] at h
      have hh := congrArg (fun l => l.head?) h
      simp [encPairChars, encStrChars] at hh
  | cons p ps =>
    cases qs with
    | nil =>
      exfalso
      simp only [encodePairsChars, List.cons.injEq, true_and] at h
      have hh := congrArg (fun l => l.head?) h
      simp [encPairChars, encStrChars] at hh
    | cons q qs =>
      simp only [encodePairsChars, List.cons.injEq, true_and] at h
      obtain ⟨hpq, ht⟩ := encPair_append_inj h
      rw [hpq, encTail_inj ht]

theorem sortedPairs_perm_invariant {s1 s2 : List (String × String)}
    (h : s1.Perm s2) : sortedPairs s1 = sortedPairs s2 :=
  List.eq_of_perm_of_sorted
    ((List.perm_insertionSort keyLex s1).trans
      (h.trans (List.perm_insertionSort keyLex s2).symm))
    (List.sorted_insertionSort keyLex s1)
    (List.sorted_insertionSort keyLex s2)

theorem sortedPairs_eq_imp_perm {s1 s2 : List (String × String)}
    (h : sortedPairs s1 = sortedPairs s2) : s1.Perm s2 := by
  have h1 : s1.Perm (sortedPairs s1) := (List.perm_insertionSort keyLex s1).symm
  have h2 : (sortedPairs s2).Perm s2 := List.perm_insertionSort keyLex s2
  rw [h] at h1
  exact h1.trans h2

theorem hashExtractionSchema_perm {s1 s2 : List (String × String)}
    (h : s1.Perm s2) : hashExtractionSchema s1 = hashExtractionSchema s2 := by
  unfold hashExtractionSchema jsonDumpsSortKeys
  rw [sortedPairs_perm_invariant h]

theorem hashExtractionSchema_inj {s1 s2 : List (String × String)}
    (h : hashExtractionSchema s1 = hashExtractionSchema s2) : s1.Perm s2 := by
  unfold hashExtractionSchema sha256Hex jsonDumpsSortKeys at h
  exact sortedPairs_eq_imp_perm (encodePairs_inj (congrArg String.data h))

/-- C6: cache-key determinism and schema key-order independence. Computing
the key is a function of `(label, pdf_bytes, schema)` and is invariant under
re-ordering of the schema's members; varying exactly one of the three inputs
(schemas compared as mappings, i.e. up to permutation of members) changes the
key; and the key has the literal shape
`extract:{label}:{pdf_hash}:{schema_hash}`. -/
theorem c6_cache_key_properties (l1 l2 b1 b2 : String)
    (s1 s2 : List (String × String)) :
    (cacheKey l1 b1 s1 =
      "extract:" ++ l1 ++ ":" ++ hashPdfBytes b1 ++ ":" ++ hashExtractionSchema s1) ∧
    (l1 = l2 → b1 = b2 → s1.Perm s2 → cacheKey l1 b1 s1 = cacheKey l2 b2 s2) ∧
    (l1 ≠ l2 → cacheKey l1 b1 s1 ≠ cacheKey l2 b1 s1) ∧
    (b1 ≠ b2 → cacheKey l1 b1 s1 ≠ cacheKey l1 b2 s1) ∧
    (¬ s1.Perm s2 → cacheKey l1 b1 s1 ≠ cacheKey l1 b1 s2) := by
  refine ⟨rfl, ?_, ?_, ?_, ?_⟩
  · rintro rfl rfl hperm
    unfold cacheKey
    rw [hashExtractionSchema_perm hperm]
  · intro hne heq
    apply hne
    have hd := congrArg String.data heq
    simp only [cacheKey, String.data_append, List.append_assoc] at hd
    have h1 := List.append_cancel_left hd
    exact string_data_inj (List.append_cancel_right h1)
  · intro hne heq
    apply hne
    have hd := congrArg String.data heq
    simp only [cacheKey, String.data_append, List.append_assoc] at hd
    have h1 := List.append_cancel_left (List.append_cancel_left
      (List.append_cancel_left hd))
    have h2 : (hashPdfBytes b1).data = (hashPdfBytes b2).data :=
      List.append_cancel_right h1
    exact string_data_inj h2
  · intro hne heq
    apply hne
    have hd := congrArg String.data heq
    simp only [cacheKey, String.data_append, List.append_assoc] at hd
    have h1 := List.append_cancel_left (List.append_cancel_left
      (List.append_cancel_left (List.append_cancel_left
        (List.append_cancel_left hd))))
    exact hashExtractionSchema_inj (string_data_inj h1)

/-- C6 witness: key-order independence at the spec's concrete example
schemas, and a changed label changing the key. -/
theorem c6_cache_key_properties_witness :
    cacheKey "a" "P" [("a", "1"), ("b", "2")] =
      cacheKey "a" "P" [("b", "2"), ("a", "1")] ∧
    cacheKey "a" "P" [] ≠ cacheKey "b" "P" [] :=
  ⟨(c6_cache_key_properties "a" "a" "P" "P" [("a", "1"), ("b", "2")]
      [("b", "2"), ("a", "1")]).2.1 rfl rfl (by decide),
   (c6_cache_key_properties "a" "b" "P" "P" [] []).2.2.1 (by decide)⟩

/-- C7: when the single OpenAI call raises, `extract_fields` (with a
configured API key) returns — it never propagates the exception — and the
returned mapping sets EVERY schema field to
`{"value": None, "details": {"error": "openai_api_error"}}`, whatever the
number of fields; the field names are exactly the schema's, in order. -/
theorem c7_llm_failure_uniform (label doc_layout err : String)
    (schema : List (String × String)) :
    extract_fields label schema doc_layout true (.error err) =
      schema.map (fun fd =>
        (fd.1, { value := none, details := [("error", "openai_api_error")] })) ∧
    (extract_fields label schema doc_layout true (.error err)).map Prod.fst =
      schema.map Prod.fst := by
  constructor
  · simp [extract_fields, fallbackError]
  · simp [extract_fields, fallbackError]

/-- C3 counterexample: a cache transport failure DOES propagate to the
pipeline caller — when the `CacheClient()` constructor's ping raises
(`ConnectionError`), `run_extraction` raises instead of treating the cache
as a miss. -/
theorem c3_init_failure_propagates :
    run_extraction envCacheDown [] req0 true =
      .error (.cacheUnavailable .connectionError) := by
  decide

/-- C3 (amended): every failure of the data-path cache operations is
absorbed — `get` returns `None`, `set` returns `False`, `health_check`
returns `False`, `get_json` treats an undecodable stored payload (and any
transport failure) as a miss — but a transport failure in
`CacheClient.__init__`'s ping is re-raised, and the pipeline constructs the
client unconditionally, so that one failure reaches the caller. -/
theorem c3_cache_failure_absorption {J : Type} (e : RedisErr) (ttl : Int)
    (raw : String) (jsonLoads : String → Option J) :
    cacheGet (.error e) = none ∧
    cacheSet ttl (.error e) (.error e) = false ∧
    healthCheck (.error e) = false ∧
    (jsonLoads raw = none → cacheGetJson (.ok (some raw)) jsonLoads = none) ∧
    cacheGetJson (.error e) jsonLoads = none ∧
    cacheClientInit (.error e) = .error e := by
  refine ⟨rfl, ?_, rfl, ?_, rfl, rfl⟩
  · unfold cacheSet
    split <;> rfl
  · intro h
    simp [cacheGetJson, cacheGet, h]

/-- C3 witness: the amended theorem at a connection error, TTL 600, and a
stored payload `json.loads` rejects. -/
theorem c3_cache_failure_absorption_witness :
    cacheGetJson (J := Nat) (.ok (some "not json")) (fun _ => none) = none :=
  (c3_cache_failure_absorption .connectionError 600 "not json"
    (fun _ => none)).2.2.2.1 rfl

/-- C2 counterexample: a request carrying EXACTLY ONE source — bytes alone —
passes the model validator but is rejected by `run_extraction` with the
`ValueError` "pdf_path is required until direct uploads are supported.",
so it does not proceed. -/
theorem c2_bytes_only_rejected :
    mkExtractionRequest "l" [("f", "d")] none (some "B") =
      .ok ⟨"l", [("f", "d")], none, some "B"⟩ ∧
    run_extraction env0 [] ⟨"l", [("f", "d")], none, some "B"⟩ true =
      .error (.invalidRequest
        "pdf_path is required until direct uploads are supported.") := by
  constructor
  · decide
  · decide

/-- C2 (amended): the model validator accepts a request iff it carries
exactly one of `pdf_path` / `pdf_bytes` (both or neither are rejected at
construction); `run_extraction` itself, however, raises its invalid-request
`ValueError` exactly when `pdf_path` is falsy (`None` or empty) — so a
bytes-only request passes validation yet never proceeds. -/
theorem c2_validation_and_path_gate (label : String)
    (schema : List (String × String)) (path bytes : Option String)
    (env : PipelineEnv) (cache : CacheState) (req : ExtractionRequest)
    (uc : Bool) :
    ((∃ r, mkExtractionRequest label schema path bytes = .ok r) ↔
      ((path ≠ none ∧ bytes = none) ∨ (path = none ∧ bytes ≠ none))) ∧
    ((∃ m, run_extraction env cache req uc = .error (.invalidRequest m)) ↔
      pathTruthy req.pdf_path = false) := by
  constructor
  · unfold mkExtractionRequest validatePdfSource
    dsimp only
    split
    · rename_i h
      constructor
      · rintro ⟨r, hr⟩
        exact absurd hr (by simp)
      · rintro (⟨h1, _⟩ | ⟨_, h2⟩)
        · exact absurd h.1 h1
        · exact absurd h.2 h2
    · split
      · rename_i hnot h
        constructor
        · rintro ⟨r, hr⟩
          exact absurd hr (by simp)
        · rintro (⟨_, h2⟩ | ⟨h1, _⟩)
          · exact absurd h2 h.2
          · exact absurd h1 h.1
      · rename_i hnot1 hnot2
        constructor
        · intro _
          by_cases h1 : path = none <;> by_cases h2 : bytes = none
          · exact absurd ⟨h1, h2⟩ hnot1
          · exact Or.inr ⟨h1, h2⟩
          · exact Or.inl ⟨h1, h2⟩
          · exact absurd ⟨h1, h2⟩ hnot2
        · intro _
          exact ⟨_, rfl⟩
  · by_cases hp : pathTruthy req.pdf_path
    · simp only [run_extraction, hp, Bool.not_true, Bool.false_eq_true, if_false]
      constructor
      · rintro ⟨m, hm⟩
        exfalso
        split at hm
        · simp at hm
        · split at hm
          · simp at hm
          · split at hm
            · simp at hm
            · split at hm <;> simp at hm
      · intro h
        simp at h
    · simp only [run_extraction, Bool.not_eq_true] at hp
      simp [run_extraction, hp]

/-- Dissection of a successful `run_extraction`: the request's path was
truthy, the PDF was on disk, the cache client connected, the result carries
the computed cache key, and the run either returned a (rewritten) cached
payload leaving the store untouched, or computed a fresh result with
`cache_hit = false` and stored it under the key. -/
theorem run_extraction_ok_elim (env : PipelineEnv) (cache : CacheState)
    (req : ExtractionRequest) (uc : Bool) (r : ExtractionResult) (c' : CacheState)
    (h : run_extraction env cache req uc = .ok (r, c')) :
    pathTruthy req.pdf_path = true ∧
    ∃ pdf_bytes,
      env.fs (env.resolve (req.pdf_path.getD "")) = some pdf_bytes ∧
      env.cacheInit = .ok () ∧
      r.meta.cache_key =
        "extract:" ++ req.label ++ ":" ++ hashPdfBytes pdf_bytes ++ ":" ++
          hashExtractionSchema req.extraction_schema ∧
      ((∃ payload, uc = true ∧
          stateGetJson cache r.meta.cache_key = some payload ∧
          r = markCacheHit payload r.meta.cache_key ∧
          c' = cache) ∨
        (r.meta.cache_hit = false ∧ c' = (r.meta.cache_key, some r) :: cache)) := by
  unfold run_extraction at h
  by_cases hp : pathTruthy req.pdf_path
  case neg => simp [hp] at h
  case pos =>
    refine ⟨hp, ?_⟩
    simp only [hp, Bool.not_true, Bool.false_eq_true, if_false] at h
    cases hfs : env.fs (env.resolve (req.pdf_path.getD "")) with
    | none => simp [hfs] at h
    | some pdf_bytes =>
      simp only [hfs] at h
      refine ⟨pdf_bytes, rfl, ?_⟩
      cases hinit : env.cacheInit with
      | error e => simp [hinit] at h
      | ok u =>
        cases u
        simp only [hinit] at h
        refine ⟨rfl, ?_⟩
        cases uc with
        | false =>
          simp only [Bool.false_eq_true, if_false] at h
          cases hdoc : env.extractDoc (env.resolve (req.pdf_path.getD "")) with
          | error err => cases err <;> simp [hdoc] at h
          | ok doc =>
            simp only [hdoc] at h
            rw [Except.ok.injEq, Prod.mk.injEq] at h
            obtain ⟨hr, hc⟩ := h
            subst hr
            exact ⟨rfl, Or.inr ⟨rfl, hc.symm⟩⟩
        | true =>
          simp only [if_true] at h
          cases hlook : stateGetJson cache
              ("extract:" ++ req.label ++ ":" ++ hashPdfBytes pdf_bytes ++ ":" ++
                hashExtractionSchema req.extraction_schema) with
          | some payload =>
            simp only [hlook] at h
            rw [Except.ok.injEq, Prod.mk.injEq] at h
            obtain ⟨hr, hc⟩ := h
            subst hr
            exact ⟨rfl, Or.inl ⟨payload, rfl, hlook, rfl, hc.symm⟩⟩
          | none =>
            simp only [hlook] at h
            cases hdoc : env.extractDoc (env.resolve (req.pdf_path.getD "")) with
            | error err => cases err <;> simp [hdoc] at h
            | ok doc =>
              simp only [hdoc] at h
              rw [Except.ok.injEq, Prod.mk.injEq] at h
              obtain ⟨hr, hc⟩ := h
              subst hr
              exact ⟨rfl, Or.inr ⟨rfl, hc.symm⟩⟩

/-- Forward evaluation of `run_extraction` on a cache hit: with a truthy
path, a resolvable PDF, a connected cache client and a stored payload under
the computed key, the run returns the payload with `cache_hit` and
`cache_key` rewritten and leaves the store untouched. -/
theorem run_extraction_hit_eval (env : PipelineEnv) (cache : CacheState)
    (req : ExtractionRequest) (pdf_bytes : String) (payload : ExtractionResult)
    (hp : pathTruthy req.pdf_path = true)
    (hfs : env.fs (env.resolve (req.pdf_path.getD "")) = some pdf_bytes)
    (hinit : env.cacheInit = .ok ())
    (hlook : stateGetJson cache
      ("extract:" ++ req.label ++ ":" ++ hashPdfBytes pdf_bytes ++ ":" ++
        hashExtractionSchema req.extraction_schema) = some payload) :
    run_extraction env cache req true =
      .ok (markCacheHit payload
        ("extract:" ++ req.label ++ ":" ++ hashPdfBytes pdf_bytes ++ ":" ++
          hashExtractionSchema req.extraction_schema), cache) := by
  unfold run_extraction
  simp [hp, hfs, hinit, hlook]

/-- C1: result-caching round-trip. If a `use_cache=true` run was a miss
(`meta.cache_hit = false`, computing and storing its result), then an
immediately following run with identical inputs returns the same result with
only `meta.cache_hit` flipped to `true`: the field values are equal and both
runs carry the same `cache_key`. -/
theorem c1_cache_roundtrip (env : PipelineEnv) (cache : CacheState)
    (req : ExtractionRequest) (r1 : ExtractionResult) (c1 : CacheState)
    (h1 : run_extraction env cache req true = .ok (r1, c1))
    (hmiss : r1.meta.cache_hit = false) :
    run_extraction env c1 req true =
      .ok ({ r1 with meta := { r1.meta with cache_hit := true } }, c1) ∧
    ({ r1 with meta := { r1.meta with cache_hit := true } } : ExtractionResult).fields
      = r1.fields ∧
    ({ r1 with meta := { r1.meta with cache_hit := true } } : ExtractionResult).meta.cache_key
      = r1.meta.cache_key := by
  obtain ⟨hp, pdf_bytes, hfs, hinit, hkey, hcase⟩ :=
    run_extraction_ok_elim env cache req true r1 c1 h1
  rcases hcase with ⟨payload, _, _, hr, _⟩ | ⟨hmiss', hc1⟩
  · rw [hr] at hmiss
    simp [markCacheHit] at hmiss
  · refine ⟨?_, rfl, rfl⟩
    have hlook2 : stateGetJson c1
        ("extract:" ++ req.label ++ ":" ++ hashPdfBytes pdf_bytes ++ ":" ++
          hashExtractionSchema req.extraction_schema) = some r1 := by
      rw [hc1, ← hkey]
      simp [stateGetJson, List.lookup]
    rw [run_extraction_hit_eval env c1 req pdf_bytes r1 hp hfs hinit hlook2]
    rw [← hkey]
    rfl

/-- C1 witness: the round-trip theorem at a concrete healthy environment —
the first run on an empty cache produces `r10` and stores it under `key0`;
the theorem then yields the second run's hit. -/
theorem c1_cache_roundtrip_witness :
    run_extraction env0 [(key0, some r10)] req0 true =
      .ok ({ r10 with meta := { r10.meta with cache_hit := true } },
        [(key0, some r10)]) :=
  (c1_cache_roundtrip env0 [] req0 r10 [(key0, some r10)]
    (by decide) (by decide)).1

/-- C4: no-read/always-write asymmetry. Every run that completes the compute
path (returns with `meta.cache_hit = false`) stores the assembled result
under the computed cache key, for either value of `use_cache`; and with
`use_cache = false` every successful run IS a compute-path run (the lookup
is skipped, even when a payload sits in the cache) and still performs the
store. -/
theorem c4_always_writes (env : PipelineEnv) (cache : CacheState)
    (req : ExtractionRequest) (r : ExtractionResult) (c' : CacheState) :
    (∀ uc, run_extraction env cache req uc = .ok (r, c') →
      r.meta.cache_hit = false →
      c' = (r.meta.cache_key, some r) :: cache) ∧
    (run_extraction env cache req false = .ok (r, c') →
      r.meta.cache_hit = false ∧ c' = (r.meta.cache_key, some r) :: cache) := by
  constructor
  · intro uc h hmiss
    obtain ⟨hp, pdf_bytes, hfs, hinit, hkey, hcase⟩ :=
      run_extraction_ok_elim env cache req uc r c' h
    rcases hcase with ⟨payload, _, _, hr, _⟩ | ⟨_, hc'⟩
    · rw [hr] at hmiss
      simp [markCacheHit] at hmiss
    · exact hc'
  · intro h
    obtain ⟨hp, pdf_bytes, hfs, hinit, hkey, hcase⟩ :=
      run_extraction_ok_elim env cache req false r c' h
    rcases hcase with ⟨payload, huc, _⟩ | ⟨hmiss, hc'⟩
    · exact absurd huc (by decide)
    · exact ⟨hmiss, hc'⟩

/-- C4 witness: with `use_cache = false` and a foreign payload already
stored under the key, the run recomputes (`cache_hit = false`) and still
prepends its own store entry. -/
theorem c4_always_writes_witness :
    r10.meta.cache_hit = false ∧
    ([(key0, some r10), (key0, some bogusR)] : CacheState) =
      (r10.meta.cache_key, some r10) :: [(key0, some bogusR)] :=
  (c4_always_writes env0 [(key0, some bogusR)] req0 r10
    [(key0, some r10), (key0, some bogusR)]).2 (by decide)

/-- C8: batch completeness and per-item isolation. For any batch and any
completion order (any permutation of the enumerated items), the yielded
stream is exactly the item results — one per input index, indices forming a
permutation of `0..N-1` — followed by exactly one summary with
`successful + failed = N`, `total = N` and status "done"; and an item whose
run raises is rendered as a status-"error" result carrying
`"{ErrorKind}: {message}"`, independently of every other item. -/
theorem c8_batch_completeness (items : List BatchItem)
    (outcome : Nat → BatchItem → Except PyExc ExtractionResult)
    (completed : List (Nat × BatchItem))
    (hperm : completed.Perm items.enum) :
    (process_batch_parallel items outcome completed =
      (processedResults outcome completed).map .item ++
        [.summary (batchSummaryOf items outcome completed)]) ∧
    (processedResults outcome completed).length = items.length ∧
    ((processedResults outcome completed).map (fun r => r.index)).Perm
      (List.range items.length) ∧
    (batchSummaryOf items outcome completed).successful +
      (batchSummaryOf items outcome completed).failed = items.length ∧
    (batchSummaryOf items outcome completed).total = items.length ∧
    (batchSummaryOf items outcome completed).status = "done" ∧
    (∀ i it e, outcome i it = .error e →
      process_one i it (outcome i it) =
        { index := i, status := "error", label := it.label, fields := none,
          meta := none, error := some (e.typeName ++ ": " ++ e.message) }) := by
  have hlen : (processedResults outcome completed).length = items.length := by
    unfold processedResults
    rw [List.length_map, hperm.length_eq, List.enum_length]
  have hone : ∀ (ix : Nat × BatchItem),
      (process_one ix.1 ix.2 (outcome ix.1 ix.2)).index = ix.1 := by
    intro ix
    cases outcome ix.1 ix.2 <;> rfl
  refine ⟨rfl, hlen, ?_, ?_, rfl, rfl, ?_⟩
  · unfold processedResults
    rw [List.map_map]
    have : ((fun (r : BatchItemResult) => r.index) ∘ fun ix =>
        process_one ix.1 ix.2 (outcome ix.1 ix.2)) = fun ix : Nat × BatchItem => ix.1 := by
      funext ix
      exact hone ix
    rw [this, ← List.enum_map_fst items]
    exact hperm.map Prod.fst
  · unfold batchSummaryOf
    dsimp only
    rw [← hlen]
    exact (List.length_eq_length_filter_add
      (fun (r : BatchItemResult) => r.status == "completed")).symm
  · intro i it e h
    rw [h]
    rfl

/-- C8 witness: the completeness theorem at a concrete two-item batch (one
success, one raising item) consumed in reversed completion order. -/
theorem c8_batch_completeness_witness :
    (batchSummaryOf items0 outcome0 completed0).successful +
      (batchSummaryOf items0 outcome0 completed0).failed = items0.length :=
  (c8_batch_completeness items0 outcome0 completed0 (by decide)).2.2.2.1

/-! ### Evaluator: character-level lemmas -/

theorem mem_of_lookup {α β : Type} [BEq α] [LawfulBEq α] {l : List (α × β)}
    {a : α} {b : β} (h : l.lookup a = some b) : (a, b) ∈ l := by
  obtain ⟨l1, l2, rfl, -⟩ := List.lookup_eq_some_iff.mp h
  simp

theorem nfkdChar_of_lookup_none {c : Char} (h : nfkdTable.lookup c = none) :
    nfkdChar c = [c] := by
  simp [nfkdChar, h]

theorem nfkd_output_stable {c d : Char} (hd : d ∈ nfkdChar c)
    (hnc : combiningMark d = false) : accentStable d = true := by
  cases hl : nfkdTable.lookup c with
  | none =>
    rw [nfkdChar_of_lookup_none hl] at hd
    simp only [List.mem_singleton] at hd
    subst hd
    simp [accentStable, nfkdChar_of_lookup_none hl, hnc]
  | some L =>
    have hmem := mem_of_lookup hl
    have htbl : nfkdTable.all
        (fun p => p.2.all (fun d => combiningMark d || accentStable d)) = true := by
      decide
    have hall := List.all_eq_true.mp htbl _ hmem
    have hdL : d ∈ L := by
      simpa [nfkdChar, hl] using hd
    have := List.all_eq_true.mp hall d hdL
    simp only [Bool.or_eq_true] at this
    rcases this with h1 | h1
    · rw [h1] at hnc
      cases hnc
    · exact h1

theorem stripAccentsL_chars {l : List Char} {d : Char}
    (hd : d ∈ stripAccentsL l) : accentStable d = true := by
  unfold stripAccentsL at hd
  obtain ⟨hmem, hnc⟩ := List.mem_filter.mp hd
  obtain ⟨c, _, hc⟩ := List.mem_flatMap.mp hmem
  exact nfkd_output_stable hc (by simpa using hnc)

theorem stripAccentsL_fixed {l : List Char}
    (h : ∀ c ∈ l, accentStable c = true) : stripAccentsL l = l := by
  unfold stripAccentsL
  induction l with
  | nil => rfl
  | cons c t ih =>
    have hc := h c (by simp)
    simp only [accentStable, Bool.and_eq_true, beq_iff_eq, Bool.not_eq_true'] at hc
    simp only [List.flatMap_cons, hc.1, List.singleton_append, List.filter_cons,
      hc.2, ih (fun x hx => h x (by simp [hx]))]
    simp

theorem lowerChar_idem (c : Char) : lowerChar (lowerChar c) = lowerChar c := by
  cases hl : asciiLowerTable.lookup c with
  | none => simp [lowerChar, hl]
  | some d =>
    have hmem := mem_of_lookup hl
    have htbl : asciiLowerTable.all (fun p => lowerChar p.2 == p.2) = true := by
      decide
    have := List.all_eq_true.mp htbl _ hmem
    simp only [beq_iff_eq] at this
    have h2 : (List.lookup d asciiLowerTable).getD d = d := by
      simpa [lowerChar] using this
    simp [lowerChar, hl, h2]

theorem lowerChar_accentStable {c : Char} (h : accentStable c = true) :
    accentStable (lowerChar c) = true := by
  cases hl : asciiLowerTable.lookup c with
  | none => simpa [lowerChar, hl] using h
  | some d =>
    have hmem := mem_of_lookup hl
    have htbl : asciiLowerTable.all (fun p => accentStable p.2) = true := by
      decide
    have := List.all_eq_true.mp htbl _ hmem
    simpa [lowerChar, hl] using this

theorem lowerChar_ws (c : Char) : isPyWs (lowerChar c) = isPyWs c := by
  cases hl : asciiLowerTable.lookup c with
  | none => simp [lowerChar, hl]
  | some d =>
    have hmem := mem_of_lookup hl
    have htbl : asciiLowerTable.all
        (fun p => !isPyWs p.1 && !isPyWs p.2) = true := by
      decide
    have := List.all_eq_true.mp htbl _ hmem
    simp only [Bool.and_eq_true, Bool.not_eq_true'] at this
    simp [lowerChar, hl, this.1, this.2]

theorem lowerL_fixed {l : List Char} (h : ∀ c ∈ l, lowerChar c = c) :
    lowerL l = l := by
  unfold lowerL
  rw [List.map_congr_left h]
  simp

/-! ### Evaluator: whitespace-collapse and trim lemmas -/

theorem collapse_true_headNotWs (l : List Char) :
    headNotWs (collapseL true l) = true := by
  induction l with
  | nil => rfl
  | cons c t ih =>
    by_cases hw : isPyWs c
    · simpa [collapseL, hw] using ih
    · simp [collapseL, hw, headNotWs]

theorem collapse_noDbl (l : List Char) : ∀ prev, noDbl (collapseL prev l) = true := by
  induction l with
  | nil => intro prev; rfl
  | cons c t ih =>
    intro prev
    by_cases hw : isPyWs c
    · cases prev with
      | true => simpa [collapseL, hw] using ih true
      | false =>
        simp only [collapseL, hw, if_true, reduceIte]
        simp [noDbl, collapse_true_headNotWs t, ih true]
    · simp [collapseL, hw, noDbl, ih false]

theorem collapse_mem {l : List Char} {d : Char} :
    ∀ prev, d ∈ collapseL prev l → d = ' ' ∨ (d ∈ l ∧ isPyWs d = false) := by
  induction l with
  | nil => intro prev h; simp [collapseL] at h
  | cons c t ih =>
    intro prev h
    by_cases hw : isPyWs c
    · cases prev with
      | true =>
        have hstep : collapseL true (c :: t) = collapseL true t := by
          simp [collapseL, hw]
        rw [hstep] at h
        rcases ih true h with h1 | ⟨h1, h2⟩
        · exact Or.inl h1
        · exact Or.inr ⟨by simp [h1], h2⟩
      | false =>
        have hstep : collapseL false (c :: t) = ' ' :: collapseL true t := by
          simp [collapseL, hw]
        rw [hstep] at h
        rcases List.mem_cons.mp h with h0 | h
        · exact Or.inl h0
        · rcases ih true h with h1 | ⟨h1, h2⟩
          · exact Or.inl h1
          · exact Or.inr ⟨by simp [h1], h2⟩
    · have hstep : collapseL prev (c :: t) = c :: collapseL false t := by
        simp [collapseL, hw]
      rw [hstep] at h
      rcases List.mem_cons.mp h with h0 | h
      · refine Or.inr ⟨by simp [h0], ?_⟩
        rw [h0]
        simpa using hw
      · rcases ih false h with h1 | ⟨h1, h2⟩
        · exact Or.inl h1
        · exact Or.inr ⟨by simp [h1], h2⟩

theorem collapse_fixed (l : List Char) (hdbl : noDbl l = true)
    (hsp : ∀ c ∈ l, isPyWs c = true → c = ' ') :
    collapseL false l = l ∧ (headNotWs l = true → collapseL true l = l) := by
  induction l with
  | nil => exact ⟨rfl, fun _ => rfl⟩
  | cons c t ih =>
    simp only [noDbl, Bool.and_eq_true, Bool.or_eq_true, Bool.not_eq_true'] at hdbl
    obtain ⟨hcond, hdt⟩ := hdbl
    have iht := ih hdt (fun x hx => hsp x (by simp [hx]))
    by_cases hw : isPyWs c
    · have hsc : c = ' ' := hsp c (by simp) hw
      have hht : headNotWs t = true := by
        rcases hcond with h1 | h1
        · rw [hw] at h1; cases h1
        · exact h1
      constructor
      · simp only [collapseL, hw, if_true, reduceIte, iht.2 hht]
        simp [hsc]
      · intro hh
        simp only [headNotWs, Bool.not_eq_true'] at hh
        rw [hw] at hh
        cases hh
    · constructor
      · simp [collapseL, hw, iht.1]
      · intro _
        simp [collapseL, hw, iht.1]

theorem noDbl_tail {c : Char} {t : List Char} (h : noDbl (c :: t) = true) :
    noDbl t = true := by
  simp only [noDbl, Bool.and_eq_true] at h
  exact h.2

theorem noDbl_dropWhile {l : List Char} (h : noDbl l = true) :
    noDbl (l.dropWhile (fun c => isPyWs c)) = true := by
  induction l with
  | nil => exact h
  | cons c t ih =>
    by_cases hw : isPyWs c
    · simpa [List.dropWhile_cons, hw] using ih (noDbl_tail h)
    · simpa [List.dropWhile_cons, hw] using h

theorem headNotWs_dropWhile (l : List Char) :
    headNotWs (l.dropWhile (fun c => isPyWs c)) = true := by
  induction l with
  | nil => rfl
  | cons c t ih =>
    by_cases hw : isPyWs c
    · simpa [List.dropWhile_cons, hw] using ih
    · simp [List.dropWhile_cons, hw, headNotWs]

theorem dropWhile_ws_fixed {l : List Char} (h : headNotWs l = true) :
    l.dropWhile (fun c => isPyWs c) = l := by
  cases l with
  | nil => rfl
  | cons c t =>
    simp only [headNotWs, Bool.not_eq_true'] at h
    simp [List.dropWhile_cons, h]

theorem dropTrail_shape (c : Char) (t : List Char) :
    dropTrailWs (c :: t) = [] ∨ ∃ r, dropTrailWs (c :: t) = c :: r := by
  simp only [dropTrailWs]
  cases hdt : dropTrailWs t with
  | nil =>
    by_cases hw : isPyWs c
    · exact Or.inl (by simp [hw])
    · exact Or.inr ⟨[], by simp [hw]⟩
  | cons x r => exact Or.inr ⟨x :: r, rfl⟩

theorem dropTrail_subset {l : List Char} {d : Char} (hd : d ∈ dropTrailWs l) :
    d ∈ l := by
  induction l with
  | nil => simpa [dropTrailWs] using hd
  | cons c t ih =>
    simp only [dropTrailWs] at hd
    cases hdt : dropTrailWs t with
    | nil =>
      rw [hdt] at hd
      by_cases hw : isPyWs c
      · simp [hw] at hd
      · simp only [hw, Bool.false_eq_true, reduceIte, List.mem_singleton] at hd
        simp [hd]
    | cons x r =>
      rw [hdt] at hd
      rcases List.mem_cons.mp hd with rfl | hd2
      · simp
      · exact List.mem_cons_of_mem c (ih (hdt ▸ hd2))

theorem dropTrail_noDbl {l : List Char} (h : noDbl l = true) :
    noDbl (dropTrailWs l) = true := by
  induction l with
  | nil => exact h
  | cons c t ih =>
    have iht := ih (noDbl_tail h)
    simp only [dropTrailWs]
    cases hdt : dropTrailWs t with
    | nil =>
      by_cases hw : isPyWs c
      · simp [hw, noDbl]
      · simp [hw, noDbl, headNotWs]
    | cons x r =>
      show noDbl (c :: x :: r) = true
      have h2 : noDbl (x :: r) = true := hdt ▸ iht
      have hcond : (!isPyWs c || headNotWs (x :: r)) = true := by
        cases t with
        | nil => simp [dropTrailWs] at hdt
        | cons y t2 =>
          rcases dropTrail_shape y t2 with hsh | ⟨r2, hsh⟩
          · rw [hsh] at hdt; cases hdt
          · rw [hsh] at hdt
            injection hdt with hxy hrr
            simp only [noDbl, Bool.and_eq_true, Bool.or_eq_true] at h
            rcases h.1 with h1 | h1
            · simp [h1]
            · simp only [headNotWs] at h1 ⊢
              rw [← hxy]
              simp [h1]
      show ((!isPyWs c || headNotWs (x :: r)) && noDbl (x :: r)) = true
      simp [hcond, h2]

theorem dropTrail_lastNotWs (l : List Char) :
    lastNotWs (dropTrailWs l) = true := by
  induction l with
  | nil => rfl
  | cons c t ih =>
    simp only [dropTrailWs]
    cases hdt : dropTrailWs t with
    | nil =>
      by_cases hw : isPyWs c
      · simp [hw, lastNotWs]
      · simp [hw, lastNotWs]
    | cons x r =>
      show lastNotWs (x :: r) = true
      exact hdt ▸ ih

theorem dropTrail_fixed {l : List Char} (h : lastNotWs l = true) :
    dropTrailWs l = l := by
  induction l with
  | nil => rfl
  | cons c t ih =>
    cases t with
    | nil =>
      simp only [lastNotWs, Bool.not_eq_true'] at h
      simp [dropTrailWs, h]
    | cons x t2 =>
      have ht : lastNotWs (x :: t2) = true := by
        simpa [lastNotWs] using h
      have h2 := ih ht
      show (match dropTrailWs (x :: t2) with
        | [] => if isPyWs c = true then [] else [c]
        | r => c :: r) = c :: x :: t2
      rw [h2]

theorem dropTrail_headNotWs {l : List Char} (h : headNotWs l = true) :
    headNotWs (dropTrailWs l) = true := by
  cases l with
  | nil => rfl
  | cons c t =>
    rcases dropTrail_shape c t with hsh | ⟨r, hsh⟩
    · simp [hsh, headNotWs]
    · rw [hsh]
      simpa [headNotWs] using h

/-! ### Evaluator: normal form of the string pipeline -/

theorem goodChar_parts {c : Char} (h : goodChar c = true) :
    accentStable c = true ∧ lowerChar c = c ∧ (isPyWs c = true → c = ' ') := by
  simp only [goodChar, Bool.and_eq_true, beq_iff_eq, Bool.or_eq_true,
    Bool.not_eq_true'] at h
  refine ⟨h.1.1, h.1.2, ?_⟩
  intro hw
  rcases h.2 with h2 | h2
  · rw [hw] at h2
    cases h2
  · simpa using h2

theorem normStr_normed (s : String) : NormedB (normStr s) = true := by
  have hl2good : ∀ c ∈ lowerL (stripAccentsL s.data),
      accentStable c = true ∧ lowerChar c = c := by
    intro c hc
    obtain ⟨c0, hc0, rfl⟩ := List.mem_map.mp hc
    exact ⟨lowerChar_accentStable (stripAccentsL_chars hc0), lowerChar_idem c0⟩
  have hl3good : ∀ c ∈ collapseL false (lowerL (stripAccentsL s.data)),
      goodChar c = true := by
    intro c hc
    rcases collapse_mem false hc with h1 | ⟨h1, h2⟩
    · rw [h1]
      decide
    · obtain ⟨ha, hlw⟩ := hl2good c h1
      simp [goodChar, ha, hlw, h2]
  have hl3dbl : noDbl (collapseL false (lowerL (stripAccentsL s.data))) = true :=
    collapse_noDbl _ false
  have hsub4 : ∀ c ∈ stripWsL (collapseL false (lowerL (stripAccentsL s.data))),
      c ∈ collapseL false (lowerL (stripAccentsL s.data)) := by
    intro c hc
    unfold stripWsL at hc
    exact (List.dropWhile_sublist _).subset (dropTrail_subset hc)
  unfold NormedB normStr normStrL
  simp only [Bool.and_eq_true]
  refine ⟨⟨⟨?_, ?_⟩, ?_⟩, ?_⟩
  · exact List.all_eq_true.mpr (fun c hc => hl3good c (hsub4 c hc))
  · unfold stripWsL
    exact dropTrail_noDbl (noDbl_dropWhile hl3dbl)
  · unfold stripWsL
    exact dropTrail_headNotWs (headNotWs_dropWhile _)
  · unfold stripWsL
    exact dropTrail_lastNotWs _

theorem normStr_fixed {s : String} (h : NormedB s = true) : normStr s = s := by
  unfold NormedB at h
  simp only [Bool.and_eq_true] at h
  obtain ⟨⟨⟨hall, hdbl⟩, hh⟩, ht⟩ := h
  have hgood := List.all_eq_true.mp hall
  have h1 : stripAccentsL s.data = s.data :=
    stripAccentsL_fixed (fun c hc => (goodChar_parts (hgood c hc)).1)
  have h2 : lowerL s.data = s.data :=
    lowerL_fixed (fun c hc => (goodChar_parts (hgood c hc)).2.1)
  have h3 : collapseL false s.data = s.data :=
    (collapse_fixed s.data hdbl
      (fun c hc => (goodChar_parts (hgood c hc)).2.2)).1
  have h4 : stripWsL s.data = s.data := by
    unfold stripWsL
    rw [dropWhile_ws_fixed hh, dropTrail_fixed ht]
  unfold normStr normStrL
  rw [h1, h2, h3, h4]

/-! ### Evaluator: composition lemmas for rendered composites -/

theorem noDbl_append {a b : List Char} (hna : noDbl a = true) (hnb : noDbl b = true)
    (hb : lastNotWs a = true ∨ headNotWs b = true) : noDbl (a ++ b) = true := by
  induction a with
  | nil => simpa using hnb
  | cons c t ih =>
    cases t with
    | nil =>
      have hcb : (!isPyWs c || headNotWs b) = true := by
        rcases hb with h1 | h1
        · simp only [lastNotWs] at h1
          simp [h1]
        · simp [h1]
      show ((!isPyWs c || headNotWs b) && noDbl b) = true
      simp [hcb, hnb]
    | cons x t2 =>
      have hdt : noDbl (x :: t2) = true := noDbl_tail hna
      have hb2 : lastNotWs (x :: t2) = true ∨ headNotWs b = true := by
        rcases hb with h1 | h1
        · exact Or.inl (by simpa [lastNotWs] using h1)
        · exact Or.inr h1
      have ihx := ih hdt hb2
      have hcx : (!isPyWs c || headNotWs (x :: t2)) = true := by
        simp only [noDbl, Bool.and_eq_true] at hna
        exact hna.1
      show ((!isPyWs c || headNotWs (x :: (t2 ++ b))) && noDbl (x :: (t2 ++ b))) = true
      have hhx : headNotWs (x :: (t2 ++ b)) = headNotWs (x :: t2) := rfl
      rw [hhx, hcx]
      simpa using ihx

theorem lastNotWs_concat (l : List Char) (c : Char) :
    lastNotWs (l ++ [c]) = !isPyWs c := by
  induction l with
  | nil => rfl
  | cons d t ih =>
    cases hX : t ++ [c] with
    | nil => exact absurd hX (by simp)
    | cons x r =>
      show lastNotWs (d :: (t ++ [c])) = !isPyWs c
      rw [hX]
      have : lastNotWs (d :: x :: r) = lastNotWs (x :: r) := rfl
      rw [this, ← hX, ih]

theorem join_comma_aux (t : List String) :
    ∀ acc : String, (∀ p ∈ t, NormedB p = true) →
    acc.data.all goodChar = true → noDbl acc.data = true →
    (t.foldl (fun a s => a ++ ", " ++ s) acc).data.all goodChar = true ∧
      noDbl (t.foldl (fun a s => a ++ ", " ++ s) acc).data = true := by
  induction t with
  | nil => intro acc _ h1 h2; exact ⟨h1, h2⟩
  | cons p t ih =>
    intro acc hparts h1 h2
    have hp : NormedB p = true := hparts p (by simp)
    simp only [NormedB, Bool.and_eq_true] at hp
    obtain ⟨⟨⟨hpall, hpdbl⟩, hph⟩, hpt⟩ := hp
    have hsep : noDbl (acc.data ++ [',', ' ']) = true := by
      apply noDbl_append h2 (by decide)
      exact Or.inr (by decide)
    have hstep2 : noDbl ((acc ++ ", " ++ p).data) = true := by
      have hd : (acc ++ ", " ++ p).data = (acc.data ++ [',', ' ']) ++ p.data := by
        simp [String.data_append]
      rw [hd]
      apply noDbl_append hsep hpdbl
      exact Or.inr hph
    have hstep1 : (acc ++ ", " ++ p).data.all goodChar = true := by
      have hd : (acc ++ ", " ++ p).data = (acc.data ++ [',', ' ']) ++ p.data := by
        simp [String.data_append]
      rw [hd]
      simp only [List.all_append, Bool.and_eq_true]
      exact ⟨⟨h1, by decide⟩, hpall⟩
    simp only [List.foldl_cons]
    exact ih (acc ++ ", " ++ p) (fun q hq => hparts q (by simp [hq])) hstep1 hstep2

theorem normedBracketJoin (parts : List String)
    (h : ∀ p ∈ parts, NormedB p = true) :
    NormedB ("[" ++ joinWith ", " parts ++ "]") = true := by
  have hmid : (joinWith ", " parts).data.all goodChar = true ∧
      noDbl (joinWith ", " parts).data = true := by
    cases parts with
    | nil => exact ⟨by decide, by decide⟩
    | cons p t =>
      have hp := h p (by simp)
      simp only [NormedB, Bool.and_eq_true] at hp
      exact join_comma_aux t p (fun q hq => h q (by simp [hq])) hp.1.1.1 hp.1.1.2
  have hd : ("[" ++ joinWith ", " parts ++ "]").data =
      '[' :: ((joinWith ", " parts).data ++ [']']) := by
    simp [String.data_append]
  unfold NormedB
  rw [hd]
  simp only [Bool.and_eq_true]
  refine ⟨⟨⟨?_, ?_⟩, rfl⟩, ?_⟩
  · simp only [List.all_cons, List.all_append, Bool.and_eq_true]
    exact ⟨by decide, hmid.1, by decide⟩
  · show ((!isPyWs '[' || headNotWs ((joinWith ", " parts).data ++ [']'])) &&
      noDbl ((joinWith ", " parts).data ++ [']'])) = true
    have hnd : noDbl ((joinWith ", " parts).data ++ [']']) = true := by
      apply noDbl_append hmid.2 (by decide)
      exact Or.inr (by decide)
    simp only [hnd, Bool.and_true, Bool.or_eq_true, Bool.not_eq_true']
    exact Or.inl (by decide)
  · show lastNotWs (('[' :: (joinWith ", " parts).data) ++ [']']) = true
    rw [lastNotWs_concat]
    decide

/-! ### Evaluator: integer stringification -/

theorem natDigitsAux_chars : ∀ fuel n : Nat, ∀ d ∈ natDigitsAux fuel n,
    ∃ k, k < 10 ∧ d = Nat.digitChar k := by
  intro fuel
  induction fuel with
  | zero => intro n d h; simp [natDigitsAux] at h
  | succ f ih =>
    intro n d h
    simp only [natDigitsAux] at h
    by_cases h10 : n < 10
    · simp only [h10, if_true, reduceIte, List.mem_singleton] at h
      exact ⟨n, h10, h⟩
    · simp only [h10, if_false, Bool.false_eq_true, reduceIte,
        List.mem_append, List.mem_singleton] at h
      rcases h with h | h
      · exact ih (n / 10) d h
      · exact ⟨n % 10, Nat.mod_lt _ (by norm_num), h⟩

theorem digitChar_plain {k : Nat} (hk : k < 10) :
    goodChar (Nat.digitChar k) = true ∧ isPyWs (Nat.digitChar k) = false := by
  interval_cases k <;> exact ⟨by decide, by decide⟩

theorem pyStrInt_chars (n : Int) :
    ∀ d ∈ (pyStrInt n).data, goodChar d = true ∧ isPyWs d = false := by
  intro d hd
  unfold pyStrInt at hd
  split at hd
  · simp only [List.mem_cons] at hd
    rcases hd with rfl | hd
    · exact ⟨by decide, by decide⟩
    · obtain ⟨k, hk, rfl⟩ := natDigitsAux_chars _ _ d hd
      exact digitChar_plain hk
  · obtain ⟨k, hk, rfl⟩ := natDigitsAux_chars _ _ d hd
    exact digitChar_plain hk

theorem noWs_noDbl {l : List Char} (h : ∀ c ∈ l, isPyWs c = false) :
    noDbl l = true := by
  induction l with
  | nil => rfl
  | cons c t ih =>
    show ((!isPyWs c || headNotWs t) && noDbl t) = true
    simp [h c (by simp), ih (fun x hx => h x (by simp [hx]))]

theorem noWs_lastNotWs {l : List Char} (h : ∀ c ∈ l, isPyWs c = false) :
    lastNotWs l = true := by
  induction l with
  | nil => rfl
  | cons c t ih =>
    cases t with
    | nil => simpa [lastNotWs] using h c (by simp)
    | cons x t2 =>
      show lastNotWs (x :: t2) = true
      exact ih (fun y hy => h y (by simp [hy]))

theorem normed_of_plain {l : List Char} (hg : ∀ c ∈ l, goodChar c = true)
    (hw : ∀ c ∈ l, isPyWs c = false) : NormedB ⟨l⟩ = true := by
  unfold NormedB
  simp only [Bool.and_eq_true]
  refine ⟨⟨⟨List.all_eq_true.mpr hg, noWs_noDbl hw⟩, ?_⟩, noWs_lastNotWs hw⟩
  cases l with
  | nil => rfl
  | cons c t => simpa [headNotWs] using hw c (by simp)

theorem normed_pyStrip_int (n : Int) : NormedB (pyStrip (pyStrInt n)) = true := by
  have hsub : ∀ d ∈ (pyStrip (pyStrInt n)).data, d ∈ (pyStrInt n).data := by
    intro d hd
    unfold pyStrip at hd
    exact (List.dropWhile_sublist _).subset (dropTrail_subset hd)
  have hd : pyStrip (pyStrInt n) =
      (⟨(pyStrip (pyStrInt n)).data⟩ : String) := rfl
  rw [hd]
  exact normed_of_plain
    (fun c hc => (pyStrInt_chars n c (hsub c hc)).1)
    (fun c hc => (pyStrInt_chars n c (hsub c hc)).2)

/-! ### Evaluator: every `normalize_value` output is in normal form -/

theorem normedB_normalizeValue (v : Value) : NormedB (normalizeValue v) = true := by
  have main : ∀ n : Nat, ∀ v : Value, sizeOf v ≤ n →
      NormedB (normalizeValue v) = true := by
    intro n
    induction n with
    | zero =>
      intro v hv
      exfalso
      cases v <;> simp at hv
    | succ n ih =>
      intro v hv
      cases v with
      | none =>
        simp only [normalizeValue]
        decide
      | bool b =>
        cases b <;> simp only [normalizeValue] <;> decide
      | int m =>
        simp only [normalizeValue]
        exact normed_pyStrip_int m
      | str s =>
        simp only [normalizeValue]
        exact normStr_normed s
      | list xs =>
        simp only [normalizeValue]
        apply normedBracketJoin
        intro p hp
        obtain ⟨⟨x, hx⟩, _, rfl⟩ := List.mem_map.mp hp
        apply ih
        have hsz := List.sizeOf_lt_of_mem hx
        have hh : sizeOf (Value.list xs) = 1 + sizeOf xs := by simp
        rw [hh] at hv
        show sizeOf x ≤ n
        omega
      | dict ps =>
        simp only [normalizeValue]
        apply normedBracketJoin
        intro p hp
        obtain ⟨⟨⟨k, w⟩, hmem⟩, _, rfl⟩ := List.mem_map.mp hp
        have hw : NormedB (normalizeValue w) = true := by
          apply ih
          have hperm : (sortByKey ps).Perm ps := by
            unfold sortByKey
            exact List.perm_insertionSort _ ps
          have hmem2 : (k, w) ∈ ps := hperm.mem_iff.mp hmem
          have hsz := List.sizeOf_lt_of_mem hmem2
          have h2 : sizeOf (k, w) = 1 + sizeOf k + sizeOf w := by simp
          have hh : sizeOf (Value.dict ps) = 1 + sizeOf ps := by simp
          rw [hh] at hv
          omega
        have hk : NormedB (normStr k) = true := normStr_normed k
        have hshape : "[" ++ normStr k ++ ", " ++ normalizeValue w ++ "]" =
            "[" ++ joinWith ", " [normStr k, normalizeValue w] ++ "]" := by
          simp [joinWith, String.append_assoc]
        rw [hshape]
        apply normedBracketJoin
        intro q hq
        rcases List.mem_cons.mp hq with rfl | hq2
        · exact hk
        · rw [List.mem_singleton.mp hq2]
          exact hw
  exact main (sizeOf v) v (le_refl _)

/-- C9: evaluator normalization is idempotent — for every embedded value
`v`, `normalize_value (normalize_value v)` (the outer call receiving the
already-normalized string) equals `normalize_value v` — and normalization is
accent-, case- and whitespace-run-insensitive at the spec's concrete pair:
"João   Silva" and "joao silva" normalize to the same string, so
`values_match` holds between them. -/
theorem c9_normalize_idempotent_insensitive (v : Value) :
    normalizeValue (.str (normalizeValue v)) = normalizeValue v ∧
    normStr "João   Silva" = normStr "joao silva" ∧
    valuesMatch (.str "João   Silva") (.str "joao silva") = true := by
  refine ⟨?_, by decide, ?_⟩
  · have h1 : normalizeValue (.str (normalizeValue v)) =
        normStr (normalizeValue v) := by
      simp only [normalizeValue]
    rw [h1]
    exact normStr_fixed (normedB_normalizeValue v)
  · show valuesMatch (.str "João   Silva") (.str "joao silva") = true
    simp only [valuesMatch, normalizeValue]
    decide

end PdfExtractor
